import Mathlib

/-!
Verification of the candidate-validation / ranking / deduplication /
category-filter / formatting pipeline of `backend/recommender.py`
(product-recommender).

Strings are modelled as `List Char` (ASCII semantics for the case
conversions and character classes the code relies on).  Python numbers are
modelled as `Int` (engagement counters, validity scores) and `ℚ` (sentiment
and rank scores; Python floats are modelled exactly).  The regular
expressions of the source are small fixed patterns (keyword alternations
followed by whitespace and digit runs); each is embedded as an explicit
scanner with Python `re.search` leftmost semantics.

The external capabilities of the pipeline (NLP model extraction, sentiment
analysis, description synthesis — the OpenAI-backed functions in
`utils.py`/`recommender.py` — and the fallback extractor
`extract_model_from_text`, which is the §4.1 Candidate-Extractor boundary)
are modelled as function parameters: every theorem below quantifies over
their behaviour, so the results hold for any responses those collaborators
produce.  The human-readable `reason` strings of the validity scorer are
elided; only the numeric score, which all control flow uses, is modelled.
-/

namespace ProductRec

/- Batteries seals the rational field operations; reopening them lets the
concrete witness computations below be checked by `decide`. -/
attribute [local semireducible] Rat.add Rat.mul Rat.inv Rat.sub Rat.ofScientific

abbrev Str : Type := List Char

/-- Python `str.lower()` (ASCII). -/
def lowerStr (s : Str) : Str := s.map Char.toLower

/-- Python `needle in hay` substring test: `needle` prefixes some suffix. -/
def substrIn (needle : Str) : Str → Bool
  | [] => needle.isPrefixOf ([] : Str)
  | c :: t => needle.isPrefixOf (c :: t) || substrIn needle t

/-- Python `any(t in s for t in terms)`. -/
def containsAny (terms : List Str) (s : Str) : Bool := terms.any (fun t => substrIn t s)

def isUpperA (c : Char) : Bool := 'A' ≤ c && c ≤ 'Z'

def isLowerA (c : Char) : Bool := 'a' ≤ c && c ≤ 'z'

/-- The regex class `[a-zA-Z]`. -/
def isAlphaA (c : Char) : Bool := isUpperA c || isLowerA c

/-- The regex class `\d` (ASCII digits). -/
def isDigitA (c : Char) : Bool := '0' ≤ c && c ≤ '9'

/-- The regex class `[a-zA-Z0-9]` / Python `\w` without the underscore. -/
def isAlnumA (c : Char) : Bool := isAlphaA c || isDigitA c

/-- Python `\w` (ASCII): letters, digits and the underscore. -/
def isWordA (c : Char) : Bool := isAlnumA c || c = '_'

/-- The regex class `\s` / Python whitespace (ASCII). -/
def isSpaceA (c : Char) : Bool :=
  c = ' ' || c = '\t' || c = '\n' || c = '\r' || c = '\x0b' || c = '\x0c'

/-- Python `hay.find(needle)` (auxiliary: current index carried along). -/
def pyFindAux (needle : Str) : Str → Nat → Option Nat
  | [], i => if needle.isPrefixOf ([] : Str) then some i else none
  | c :: t, i => if needle.isPrefixOf (c :: t) then some i else pyFindAux needle t (i + 1)

/-- Python `hay.find(needle)`: index of the first occurrence (`none` for -1). -/
def pyFind (hay needle : Str) : Option Nat := pyFindAux needle hay 0

/-- Python slice `s[a:b]` for `0 ≤ a ≤ b`. -/
def pySlice (s : Str) (a b : Nat) : Str := (s.drop a).take (b - a)

/-- Numeric value of a digit run (`int` of a decimal string). -/
def natOfDigits (l : Str) : Nat := l.foldl (fun a c => a * 10 + (c.toNat - 48)) 0

/-- Whether the first `n` characters of `s` exist and are all digits
(the regex `\d{n}` anchored at the start of `s`). -/
def digitsAt (n : Nat) (s : Str) : Bool :=
  (s.take n).length = n && (s.take n).all isDigitA

/-- First keyword of `kws` (in order, regex alternation) that prefixes `s`,
returning the remainder of `s` after it. -/
def firstKw : List Str → Str → Option Str
  | [], _ => none
  | k :: ks, s => if k.isPrefixOf s then some (s.drop k.length) else firstKw ks s

/-- Try a pattern matcher at every position of the string, leftmost first
(`re.search` semantics). -/
def findSuffix {α : Type} (f : Str → Option α) : Str → Option α
  | [] => f []
  | c :: t =>
    match f (c :: t) with
    | some a => some a
    | none => findSuffix f t

/-- Boolean `re.search` over all positions. -/
def searchSuffixes (f : Str → Bool) : Str → Bool
  | [] => f []
  | c :: t => f (c :: t) || searchSuffixes f t

/-- Anchored matcher for `(kw1|kw2|…)\s*(\d{4})`, returning the value of the
four-digit group. -/
def kwNum4At (kws : List Str) (s : Str) : Option Nat :=
  match firstKw kws s with
  | none => none
  | some rest =>
    let t := rest.dropWhile isSpaceA
    if digitsAt 4 t then some (natOfDigits (t.take 4)) else none

/-- `re.search` for `(kw1|kw2|…)\s*(\d{4})`, returning the first match's
four-digit group. -/
def searchKwNum4 (kws : List Str) (s : Str) : Option Nat := findSuffix (kwNum4At kws) s

/-- Anchored matcher for `(kw1|…)\s*[letters]?\d{3,4}`: an optional single
character drawn from `optLetter` may stand between the whitespace and the
digits (used by the GPU patterns `[a-b]?` and `[a-z]?`). -/
def gpuPatAt (optLetter : Char → Bool) (kws : List Str) (s : Str) : Bool :=
  match firstKw kws s with
  | none => false
  | some rest =>
    let t := rest.dropWhile isSpaceA
    match t with
    | [] => false
    | c :: r2 => if optLetter c then digitsAt 3 r2 else digitsAt 3 (c :: r2)

/-- Anchored matcher for `arc\s*([a-z])?(\d{3})`: optional series letter and
the three-digit model number. -/
def arcAt (s : Str) : Option (Option Char × Nat) :=
  if ("arc".data).isPrefixOf s then
    let t := (s.drop 3).dropWhile isSpaceA
    match t with
    | [] => none
    | c :: rest =>
      if isLowerA c then
        if digitsAt 3 rest then some (some c, natOfDigits (rest.take 3)) else none
      else
        if digitsAt 3 (c :: rest) then some (none, natOfDigits ((c :: rest).take 3)) else none
  else none

/-- The brand list of `is_valid_product` (step 3; `sony` is listed twice in
the source). -/
def brandList : List Str :=
  (["samsung", "apple", "sony", "lg", "microsoft", "dell", "hp",
    "lenovo", "asus", "acer", "alienware", "msi", "gigabyte", "dyson",
    "intel", "amd", "nvidia", "corsair", "logitech", "razer", "bose",
    "sony", "jbl", "shure", "shark", "bosch", "miele", "canon", "nikon"]).map String.data

/-- `re.search(r'[A-Z][a-z]+', s)`: an uppercase letter immediately followed
by a lowercase letter occurs somewhere. -/
def hasCapLower : Str → Bool
  | [] => false
  | [_] => false
  | a :: b :: t => (isUpperA a && isLowerA b) || hasCapLower (b :: t)

/-- Step 1 of `is_valid_product`: length. -/
def ivpLenPart (name : Str) : Int := if name.length < 6 then -3 else 1

/-- Step 2 of `is_valid_product`: letter/digit mix. -/
def ivpLetterPart (name : Str) : Int :=
  let hasL := name.any isAlphaA
  let hasN := name.any isDigitA
  if hasL && hasN then 2 else if !hasN then -1 else 0

/-- Step 3 of `is_valid_product`: brand / capitalized word. -/
def ivpBrandPart (name pl : Str) : Int :=
  if containsAny brandList pl then 2
  else if hasCapLower name then 1
  else -1

def ivpGpuSearch (pl : Str) : Bool :=
  searchSuffixes
    (fun s => gpuPatAt (fun c => c = 'a' || c = 'b')
      (["rtx", "gtx", "radeon rx", "arc"].map String.data) s) pl

def nvidiaPart (pl : Str) : Int :=
  match searchKwNum4 (["rtx", "gtx"].map String.data) pl with
  | none => 0
  | some n => if 5000 ≤ n then -3 else 2

def validArcModels : List Nat := [770, 750, 580, 380, 350, 325, 310]

def intelPart (pl : Str) : Int :=
  match findSuffix arcAt pl with
  | none => 0
  | some (some c, n) =>
    if c ≠ 'a' then -3
    else if validArcModels.contains n then 2 else -2
  | some (none, _) => -1

def amdPart (pl : Str) : Int :=
  match searchKwNum4 (["radeon rx", "rx"].map String.data) pl with
  | none => 0
  | some n => if 8000 ≤ n then -3 else 2

/-- GPU/gaming category branch of `is_valid_product` (step 4, first arm). -/
def ivpGpuCat (pl : Str) : Int :=
  if ivpGpuSearch pl then
    nvidiaPart pl + intelPart pl + amdPart pl + (if substrIn "gb".data pl then 1 else 0)
  else 0

def scorerSysKws : List Str :=
  (["system", "desktop", "tower", "pc", "computer", "gaming pc"]).map String.data

def scorerPrebuiltBrands : List Str :=
  (["alienware", "hp omen", "corsair", "lenovo legion", "asus rog", "msi", "acer predator"]).map String.data

def scorerCompKws : List Str :=
  (["ryzen", "core i", "intel", "processor", "gpu", "card", "ram"]).map String.data

/-- Computer/pc/desktop category branch of `is_valid_product` (step 4,
second arm).  `name` is the raw name (its length is tested), `pl` its
lowercase form. -/
def ivpCompCat (name pl : Str) : Int :=
  (if containsAny scorerSysKws pl then 2 else 0)
  + (if containsAny scorerPrebuiltBrands pl then 3 else 0)
  + (if (searchKwNum4 (["rtx", "gtx", "radeon"].map String.data) pl).isSome
        && !(containsAny scorerSysKws pl) then
      (if name.length < 20 then -3 else 0)
    else 0)
  + (if containsAny scorerCompKws pl then
      (if name.length < 15 && !(containsAny scorerSysKws pl) then -2 else 0)
    else 0)

/-- Step 4 of `is_valid_product`: category dispatch on the lowered product
type.  A type containing "gaming" (such as "gaming pc") takes the first
branch. -/
def ivpCatPart (name pl ptl : Str) : Int :=
  if substrIn "graphics".data ptl || substrIn "gpu".data ptl || substrIn "gaming".data ptl then
    ivpGpuCat pl
  else if substrIn "computer".data ptl || substrIn "pc".data ptl
      || substrIn "desktop".data ptl || substrIn "gaming pc".data ptl then
    ivpCompCat name pl
  else 0

def ownershipTerms : List Str :=
  (["i bought", "i own", "i use", "i have", "purchased", "using"]).map String.data

def recommendTerms : List Str :=
  (["recommend", "suggested", "best", "top", "great", "excellent"]).map String.data

/-- Step 5 of `is_valid_product`: context validation.  `pl` is the lowered
product name, `ctx` the surrounding text. -/
def ivpCtxPart (pl ctx : Str) : Int :=
  if ctx = [] then 0
  else
    let cl := lowerStr ctx
    (if containsAny ownershipTerms cl then
      match pyFind cl pl with
      | some idx =>
        if containsAny ownershipTerms (pySlice cl (idx - 50) idx) then 3 else 0
      | none => 0
    else 0)
    + (if containsAny recommendTerms cl then 1 else 0)

/-- The confidence score computed by `is_valid_product(product_name,
context_text, product_type)`.  The boolean it also returns is `score ≥ 3`;
all call sites filter on the raw score, which is what we model. -/
def is_valid_product (name ctx ptype : Str) : Int :=
  let pl := lowerStr name
  let ptl := lowerStr ptype
  ivpLenPart name + ivpLetterPart name + ivpBrandPart name pl
    + ivpCatPart name pl ptl + ivpCtxPart pl ctx

example : is_valid_product "Dyson V15 Detect".data "I bought the Dyson V15 Detect and love it".data "vacuum cleaner".data = 8 := by decide

example : is_valid_product "RTX 4090".data "".data "gaming pc".data = 4 := by decide

example : is_valid_product "Alienware Aurora R16".data "".data "desktop computer".data = 8 := by decide

/-- The mention record built by `process_reddit_data` / `process_youtube_data`.
One structure models both streams (the Python dicts share a function
downstream); the fields the other stream does not set carry the value the
`dict.get` defaults would give (`0`, `[]`).  The `validity_reason` string is
elided (documentation only, no control flow reads it).  `score` is the rank
score assigned by the scoring pass (`0` until then). -/
structure Mention where
  product : Str
  upvotes : Int
  views : Int
  likes : Int
  title : Str
  sentiment : ℚ
  source : Str
  description : Str
  validity_score : Int
  product_type : Str
  attributes : List Str
  score : ℚ
deriving DecidableEq

structure RedditComment where
  text : Str
  upvotes : Int
deriving DecidableEq

structure RedditThread where
  title : Str
  url : Str
  comments : List RedditComment
deriving DecidableEq

structure Video where
  title : Str
  url : Str
  transcript : Str
  views : Int
  likes : Int
deriving DecidableEq

/-- The external collaborators of the pipeline, passed as parameters:
`extract_product_models` and `analyze_sentiment` (OpenAI-backed, `utils.py`),
`generate_description` (the excerpt builder, spec §4.5 raw path) and
`extract_model_from_text` (the §4.1 fallback extractor; `none` models a
falsy return).  Every theorem quantifies over these. -/
structure Caps where
  extract_product_models : Str → List Str
  analyze_sentiment : Str → ℚ
  generate_description : Str → Str → List Str → Str
  extract_model_from_text : Str → Str → Option Str

/-- First extraction pass of `process_reddit_data` over one comment
(recommender.py lines 277-310): extract models, validate each, hard-reject
negative validity, append a mention otherwise. -/
def redditFirstPassComment (caps : Caps) (product : Str) (attrs : List Str) (url : Str)
    (ms : List Mention) (c : RedditComment) : List Mention :=
  let models := caps.extract_product_models c.text
  if models.isEmpty then ms
  else
    let s := caps.analyze_sentiment c.text
    models.foldl (fun acc model =>
      let v := is_valid_product model c.text product
      if v < 0 then acc
      else acc ++ [{ product := model, upvotes := c.upvotes, views := 0, likes := 0,
                     title := [], sentiment := s, source := url,
                     description := caps.generate_description c.text model attrs,
                     validity_score := v, product_type := product,
                     attributes := attrs, score := 0 }]) ms

/-- The whole first pass of one thread. -/
def redditFirstPass (caps : Caps) (product : Str) (attrs : List Str)
    (ms : List Mention) (t : RedditThread) : List Mention :=
  t.comments.foldl (redditFirstPassComment caps product attrs t.url) ms

/-- Second (regex fallback) pass of `process_reddit_data` over one comment
(lines 314-344): runs `extract_model_from_text`, validates, hard-rejects
negative validity, and skips a model whose lowercase name equals an
already-collected mention's product. -/
def redditSecondPassComment (caps : Caps) (product : Str) (attrs : List Str) (url : Str)
    (ms : List Mention) (c : RedditComment) : List Mention :=
  match caps.extract_model_from_text c.text product with
  | none => ms
  | some model =>
    if model = [] then ms
    else
      let v := is_valid_product model c.text product
      if v < 0 then ms
      else
        let s := caps.analyze_sentiment c.text
        if ms.any (fun m => lowerStr m.product = lowerStr model) then ms
        else ms ++ [{ product := model, upvotes := c.upvotes, views := 0, likes := 0,
                      title := [], sentiment := s, source := url,
                      description := caps.generate_description c.text model attrs,
                      validity_score := v, product_type := product,
                      attributes := attrs, score := 0 }]

/-- One thread of `process_reddit_data`: first pass, then — only when fewer
than 2 mentions have accumulated so far across all threads — the second
pass (line 313: `if len(product_mentions) < 2`). -/
def redditThreadStep (caps : Caps) (product : Str) (attrs : List Str)
    (ms : List Mention) (t : RedditThread) : List Mention :=
  let ms1 := redditFirstPass caps product attrs ms t
  if ms1.length < 2 then t.comments.foldl (redditSecondPassComment caps product attrs t.url) ms1
  else ms1

/-- All mentions built by `process_reddit_data` before scoring. -/
def redditMentionsRaw (caps : Caps) (threads : List RedditThread)
    (product : Str) (attrs : List Str) : List Mention :=
  threads.foldl (redditThreadStep caps product attrs) []

/-- `product_type_terms = [product.lower()] + [attr.lower() for attr in attributes if attr]`. -/
def product_type_terms (product : Str) (attrs : List Str) : List Str :=
  lowerStr product :: (attrs.filter (fun a => !a.isEmpty)).map lowerStr

def clampValidity (v : Int) : Int := min 5 (max 0 v)

/-- `+1` for each query term that is a substring of the lowered name. -/
def termBonus (terms : List Str) (pl : Str) : ℚ :=
  ((terms.countP (fun t => substrIn t pl)) : ℚ)

/-- The forum-stream rank score (recommender.py lines 347-365). -/
def redditRankScore (product : Str) (attrs : List Str) (m : Mention) : ℚ :=
  m.sentiment * 5 + min 5 ((m.upvotes : ℚ) / 10)
    + (clampValidity m.validity_score : ℚ) * 2
    + termBonus (product_type_terms product attrs) (lowerStr m.product)
    + (if 8 < m.product.length then 1 else 0)

def scoreRedditMentions (product : Str) (attrs : List Str) (ms : List Mention) : List Mention :=
  ms.map (fun m => { m with score := redditRankScore product attrs m })

/-- Stable insertion keeping `x` before the first element it is `ge` to:
this is Python's stable `list.sort(key=…, reverse=True)` when `ge` is the
reflexive "key not smaller" test. -/
def insertDesc {α : Type} (ge : α → α → Bool) (x : α) : List α → List α
  | [] => [x]
  | y :: ys => if ge x y then x :: y :: ys else y :: insertDesc ge x ys

def sortDesc {α : Type} (ge : α → α → Bool) (l : List α) : List α :=
  l.foldr (insertDesc ge) []

def redditSortKey (m : Mention) : ℚ × ℚ × Int := (m.score, m.sentiment, m.upvotes)

/-- Lexicographic `a ≥ b` on (score, sentiment, upvotes). -/
def lexGE3 (a b : ℚ × ℚ × Int) : Bool :=
  b.1 < a.1 || (a.1 = b.1 && (b.2.1 < a.2.1 || (a.2.1 = b.2.1 && b.2.2 ≤ a.2.2)))

/-- The forum-stream dedup key: `re.sub(r'[^a-zA-Z0-9]', '', product.lower())`. -/
def redditKey (m : Mention) : Str := (lowerStr m.product).filter isAlnumA

/-- Ordered-dict update (lines 373-379): replace the kept mention in place
when the new one's score is strictly greater; append a fresh key at the end. -/
def dedupUpd (k : Str) (m : Mention) : List (Str × Mention) → List (Str × Mention)
  | [] => [(k, m)]
  | (k', m') :: rest =>
    if k = k' then
      if m'.score < m.score then (k', m) :: rest else (k', m') :: rest
    else (k', m') :: dedupUpd k m rest

def dedupStep (key : Mention → Str) (st : List (Str × Mention)) (m : Mention) :
    List (Str × Mention) :=
  dedupUpd (key m) m st

/-- `list(unique_products.values())` after the dedup loop. -/
def dedupMentions (key : Mention → Str) (l : List Mention) : List Mention :=
  (l.foldl (dedupStep key) []).map Prod.snd

/-- The scored, sorted forum-stream mention list (before deduplication). -/
def reddit_ranked (caps : Caps) (threads : List RedditThread)
    (product : Str) (attrs : List Str) : List Mention :=
  sortDesc (fun a b => lexGE3 (redditSortKey a) (redditSortKey b))
    (scoreRedditMentions product attrs (redditMentionsRaw caps threads product attrs))

/-- `process_reddit_data` (recommender.py lines 250-384). -/
def process_reddit_data (caps : Caps) (threads : List RedditThread)
    (product : Str) (attrs : List Str) : List Mention :=
  dedupMentions redditKey (reddit_ranked caps threads product attrs)

/-- One video of `process_youtube_data` (lines 401-433). -/
def ytVideoStep (caps : Caps) (product : Str) (attrs : List Str)
    (ms : List Mention) (v : Video) : List Mention :=
  let models := caps.extract_product_models v.transcript
  if models.isEmpty then ms
  else
    let s := caps.analyze_sentiment v.transcript
    models.foldl (fun acc model =>
      let vs := is_valid_product model v.transcript product
      if vs < 0 then acc
      else acc ++ [{ product := model, upvotes := 0, views := v.views, likes := v.likes,
                     title := v.title, sentiment := s, source := v.url,
                     description := caps.generate_description v.transcript model attrs,
                     validity_score := vs, product_type := product,
                     attributes := attrs, score := 0 }]) ms

def ytMentionsRaw (caps : Caps) (videos : List Video)
    (product : Str) (attrs : List Str) : List Mention :=
  videos.foldl (ytVideoStep caps product attrs) []

/-- The video-stream rank score (lines 436-454). -/
def ytRankScore (product : Str) (attrs : List Str) (m : Mention) : ℚ :=
  m.sentiment * 3 + min 3 ((m.likes : ℚ) / 100) + min 4 ((m.views : ℚ) / 10000)
    + (clampValidity m.validity_score : ℚ) * 2
    + (if substrIn (lowerStr m.product) (lowerStr m.title) then 3 else 0)
    + termBonus (product_type_terms product attrs) (lowerStr m.product)

def scoreYtMentions (product : Str) (attrs : List Str) (ms : List Mention) : List Mention :=
  ms.map (fun m => { m with score := ytRankScore product attrs m })

def scoreGE (a b : Mention) : Bool := b.score ≤ a.score

/-- Python `str.strip()` (ASCII whitespace). -/
def stripStr (s : Str) : Str := ((s.dropWhile isSpaceA).reverse.dropWhile isSpaceA).reverse

/-- The video-stream dedup key: `product.lower().strip()` (line 462) —
note: unlike the forum stream, punctuation and inner spaces are kept. -/
def ytKey (m : Mention) : Str := stripStr (lowerStr m.product)

/-- The scored, sorted video-stream mention list (before deduplication). -/
def yt_ranked (caps : Caps) (videos : List Video)
    (product : Str) (attrs : List Str) : List Mention :=
  sortDesc scoreGE (scoreYtMentions product attrs (ytMentionsRaw caps videos product attrs))

/-- `process_youtube_data` (recommender.py lines 386-467). -/
def process_youtube_data (caps : Caps) (videos : List Video)
    (product : Str) (attrs : List Str) : List Mention :=
  dedupMentions ytKey (yt_ranked caps videos product attrs)

/-- The final recommendation record (`validity_reason` is not part of it;
the description comes from the external `generate_ai_description`). -/
structure Recommendation where
  product : Str
  description : Str
  sources : List Str
  buy_link : Str
  image_url : Str
  validity_score : Int
  attributes : List Str
deriving DecidableEq

/-- The AI description synthesizer (OpenAI-backed with a deterministic
fallback), passed as a parameter: arguments are (sanitized name, raw
description, product type, derived attributes). -/
structure FormatCaps where
  generate_ai_description : Str → Str → Str → List Str → Str

def systemSearchTerms : List Str :=
  (["computer", "pc", "desktop", "gaming pc", "laptop"]).map String.data

/-- Lines 677-680: the product type is the first mention's, lowercased
(empty when absent/empty). -/
def formatProductType (ms : List Mention) : Str :=
  match ms with
  | [] => []
  | m :: _ => if m.product_type = [] then [] else lowerStr m.product_type

def is_system_search (ms : List Mention) : Bool :=
  containsAny systemSearchTerms (formatProductType ms)

def filterSysKws : List Str :=
  (["system", "desktop", "tower", "pc", "computer", "gaming pc", "laptop"]).map String.data

def filterCompKws : List Str :=
  (["ryzen", "core i", "intel", "amd", "processor", "cpu", "gpu", "card", "ram", "memory"]).map String.data

def filterSystemBrands : List Str :=
  (["alienware", "hp omen", "dell xps", "lenovo legion", "asus rog", "corsair", "msi",
    "acer predator", "ibuypower", "cyberpower"]).map String.data

def filterGpuSearch (pl : Str) : Bool :=
  searchSuffixes
    (fun s => gpuPatAt isLowerA (["rtx", "gtx", "radeon rx", "arc"].map String.data) s) pl

/-- The component test of the category filter (lines 688-707): standalone
GPU with short name, or a component keyword, each without a system keyword;
a known prebuilt-system brand overrides to "system". -/
def is_component (p : Mention) : Bool :=
  let name := lowerStr p.product
  let f1 := if filterGpuSearch name && !(containsAny filterSysKws name) then
              (if name.length < 20 then true else false)
            else false
  let f2 := if containsAny filterCompKws name && !(containsAny filterSysKws name) then true
            else f1
  if containsAny filterSystemBrands name then false else f2

def systemsOf (ms : List Mention) : List Mention := ms.filter (fun p => !(is_component p))

def validOf (ms : List Mention) : List Mention := ms.filter (fun p => 3 ≤ p.validity_score)

/-- The subset the category filter selects (lines 683-740). -/
def selectedProducts (ms : List Mention) : List Mention :=
  if is_system_search ms then
    if !(systemsOf ms).isEmpty then
      if !(validOf (systemsOf ms)).isEmpty then validOf (systemsOf ms) else systemsOf ms
    else
      if !(validOf ms).isEmpty then validOf ms else ms
  else
    if !(validOf ms).isEmpty then validOf ms else ms

/-- Python sorts `selected_products` in place (line 743); in the fallback
branches that list is the very `product_mentions` object, so the later
`product_mentions[1:5]` source scan (line 808) reads the re-sorted list.
This marks that aliasing case. -/
def selectionAliased (ms : List Mention) : Bool :=
  if is_system_search ms then (systemsOf ms).isEmpty && (validOf ms).isEmpty
  else (validOf ms).isEmpty

def selected_sorted (ms : List Mention) : List Mention := sortDesc scoreGE (selectedProducts ms)

/-- The list whose positions 1-4 the source scan reads. -/
def sourceScanList (ms : List Mention) : List Mention :=
  if selectionAliased ms then sortDesc scoreGE ms else ms

def collapseWsAux : Bool → Str → Str
  | _, [] => []
  | prev, c :: t =>
    if isSpaceA c then
      if prev then collapseWsAux true t else ' ' :: collapseWsAux true t
    else c :: collapseWsAux false t

/-- `re.sub(r'\s+', ' ', s)`: each maximal whitespace run becomes one space. -/
def collapseWs (s : Str) : Str := collapseWsAux false s

/-- Lines 762-763: drop characters outside `[\w\s-]`, collapse whitespace,
strip.  Note Python `\w` keeps the underscore. -/
def sanitizeName (s : Str) : Str :=
  stripStr (collapseWs (s.filter (fun c => isWordA c || isSpaceA c || c = '-')))

/-- Python `str.split()`: whitespace split discarding empty words. -/
def pySplitWs (s : Str) : List Str := (s.splitOnP isSpaceA).filter (fun w => !w.isEmpty)

/-- Lines 768-780: implied attributes from the product type's tail words,
then the mention's explicit attributes. -/
def derivedAttrs (top : Mention) : List Str :=
  let words := pySplitWs top.product_type
  let base := if 1 < words.length then words.drop 1 else []
  if !top.attributes.isEmpty then base ++ top.attributes else base

def plusName (s : Str) : Str := s.map (fun c => if c = ' ' then '+' else c)

def generate_amazon_link (pm : Str) : Str :=
  "https://www.amazon.com/s?k=".data ++ plusName pm ++ "&tag=allurecomreco-20".data

def generate_image_url (pm : Str) : Str :=
  "https://placehold.co/400x400/f5f5f5/333?text=".data ++ plusName pm

/-- Lines 807-810: scan mentions, appending a nonempty source URL not yet
present while fewer than 3 are collected. -/
def appendSources (scan : List Mention) (start : List Str) : List Str :=
  scan.foldl (fun acc m =>
    if !m.source.isEmpty && !(acc.contains m.source) && acc.length < 3 then acc ++ [m.source]
    else acc) start

def defaultSources (src : Str) : List Str :=
  if src = "reddit".data then ["https://www.reddit.com".data]
  else if src = "youtube".data then ["https://www.youtube.com".data]
  else []

/-- `format_recommendation` (recommender.py lines 656-820).  The `[] => none`
arm of the match is unreachable (a nonempty input yields a nonempty
selection; Python would raise there). -/
def format_recommendation (fc : FormatCaps) (ms : List Mention) (src : Str) :
    Option Recommendation :=
  if ms.isEmpty then none
  else
    match selected_sorted ms with
    | [] => none
    | top :: _ =>
      if top.product = [] || top.product.length < 3 then none
      else
        let pm := sanitizeName top.product
        let attrs := derivedAttrs top
        let desc := fc.generate_ai_description pm top.description top.product_type attrs
        let s0 : List Str := if !top.source.isEmpty then [top.source] else []
        let scan := sourceScanList ms
        let s1 := if 1 < ms.length then appendSources ((scan.drop 1).take 4) s0 else s0
        let s2 := if s1.isEmpty then defaultSources src else s1
        some { product := pm, description := desc, sources := s2,
               buy_link := generate_amazon_link pm, image_url := generate_image_url pm,
               validity_score := top.validity_score, attributes := top.attributes }

/-- Simple concrete capabilities for witnesses: fixed extraction result,
fixed sentiment, empty descriptions, no fallback extraction. -/
def capsConst (names : List Str) (q : ℚ) : Caps :=
  { extract_product_models := fun _ => names
  , analyze_sentiment := fun _ => q
  , generate_description := fun _ _ _ => []
  , extract_model_from_text := fun _ _ => none }

/-- Description synthesizer that returns the raw description unchanged. -/
def fcId : FormatCaps := ⟨fun _ d _ _ => d⟩

/-! Lemmas about the stable descending sort. -/

theorem mem_insertDesc {α : Type} (ge : α → α → Bool) (x : α) :
    ∀ (l : List α) (y : α), y ∈ insertDesc ge x l ↔ y = x ∨ y ∈ l := by
  intro l
  induction l with
  | nil => intro y; simp [insertDesc]
  | cons z zs ih =>
    intro y
    simp only [insertDesc]
    split
    · simp [List.mem_cons]
    · simp only [List.mem_cons, ih y]
      tauto

theorem mem_sortDesc {α : Type} (ge : α → α → Bool) :
    ∀ (l : List α) (y : α), y ∈ sortDesc ge l ↔ y ∈ l := by
  intro l
  induction l with
  | nil => intro y; simp [sortDesc]
  | cons z zs ih =>
    intro y
    show y ∈ insertDesc ge z (sortDesc ge zs) ↔ _
    rw [mem_insertDesc, ih]
    simp [List.mem_cons]

theorem length_insertDesc {α : Type} (ge : α → α → Bool) (x : α) :
    ∀ (l : List α), (insertDesc ge x l).length = l.length + 1 := by
  intro l
  induction l with
  | nil => rfl
  | cons z zs ih =>
    simp only [insertDesc]
    split
    · rfl
    · simp [List.length_cons, ih]

theorem length_sortDesc {α : Type} (ge : α → α → Bool) :
    ∀ (l : List α), (sortDesc ge l).length = l.length := by
  intro l
  induction l with
  | nil => rfl
  | cons z zs ih =>
    show (insertDesc ge z (sortDesc ge zs)).length = _
    rw [length_insertDesc, ih, List.length_cons]

/-! Lemmas about the ordered-dict deduplication. -/

/-- The dict-update combine: keep the current value unless the new mention's
score is strictly greater. -/
def pickMax (acc : Option Mention) (x : Mention) : Option Mention :=
  match acc with
  | none => some x
  | some c => if c.score < x.score then some x else some c

def lookupKey (k : Str) : List (Str × Mention) → Option Mention
  | [] => none
  | (k', m') :: rest => if k = k' then some m' else lookupKey k rest

theorem dedupUpd_nil (k : Str) (m : Mention) : dedupUpd k m [] = [(k, m)] := rfl

theorem dedupUpd_cons (k : Str) (m : Mention) (k0 : Str) (m0 : Mention)
    (rest : List (Str × Mention)) :
    dedupUpd k m ((k0, m0) :: rest) =
      if k = k0 then (if m0.score < m.score then (k0, m) :: rest else (k0, m0) :: rest)
      else (k0, m0) :: dedupUpd k m rest := rfl

theorem lookupKey_nil (k : Str) : lookupKey k [] = none := rfl

theorem lookupKey_cons (k k0 : Str) (m0 : Mention) (rest : List (Str × Mention)) :
    lookupKey k ((k0, m0) :: rest) = if k = k0 then some m0 else lookupKey k rest := rfl

theorem pickMax_some_lt (c y : Mention) (h : c.score < y.score) :
    pickMax (some c) y = some y := by
  rw [pickMax, if_pos h]

theorem pickMax_some_ge (c y : Mention) (h : ¬ c.score < y.score) :
    pickMax (some c) y = some c := by
  rw [pickMax, if_neg h]

theorem lookup_dedupUpd (k : Str) (m : Mention) :
    ∀ (st : List (Str × Mention)) (k' : Str),
      lookupKey k' (dedupUpd k m st) =
        if k' = k then pickMax (lookupKey k st) m else lookupKey k' st := by
  intro st
  induction st with
  | nil =>
    intro k'
    rw [dedupUpd_nil, lookupKey_cons, lookupKey_nil, lookupKey_nil]
    rfl
  | cons p rest ih =>
    obtain ⟨k0, m0⟩ := p
    intro k'
    rw [dedupUpd_cons]
    by_cases hk : k = k0
    · subst hk
      rw [if_pos rfl]
      by_cases hs : m0.score < m.score
      · rw [if_pos hs]
        by_cases h' : k' = k
        · subst h'
          simp [lookupKey_cons, pickMax_some_lt m0 m hs]
        · simp [lookupKey_cons, h']
      · rw [if_neg hs]
        by_cases h' : k' = k
        · subst h'
          simp [lookupKey_cons, pickMax_some_ge m0 m hs]
        · simp [lookupKey_cons, h']
    · rw [if_neg hk]
      by_cases h0 : k' = k0
      · subst h0
        have h' : ¬ k' = k := fun h => hk h.symm
        simp [lookupKey_cons, h']
      · rw [lookupKey_cons, if_neg h0, ih k']
        by_cases h' : k' = k
        · subst h'
          simp [lookupKey_cons, hk]
        · simp [lookupKey_cons, h0, h']

theorem lookup_dedup_foldl (key : Mention → Str) :
    ∀ (l : List Mention) (st : List (Str × Mention)) (k : Str),
      lookupKey k (l.foldl (dedupStep key) st) =
        (l.filter (fun m => key m = k)).foldl pickMax (lookupKey k st) := by
  intro l
  induction l with
  | nil => intro st k; rfl
  | cons m l' ih =>
    intro st k
    rw [List.foldl_cons]
    have hstep : dedupStep key st m = dedupUpd (key m) m st := rfl
    rw [hstep, ih, lookup_dedupUpd]
    by_cases h : key m = k
    · subst h
      rw [if_pos rfl]
      have hfil : (m :: l').filter (fun x => key x = key m) =
          m :: l'.filter (fun x => key x = key m) := by
        rw [List.filter_cons, if_pos (by simp)]
      rw [hfil, List.foldl_cons]
    · have h' : ¬ k = key m := fun hh => h hh.symm
      rw [if_neg h']
      have hfil : (m :: l').filter (fun x => key x = k) =
          l'.filter (fun x => key x = k) := by
        rw [List.filter_cons, if_neg (by simpa using h)]
      rw [hfil]

theorem lookup_mem (k : Str) (m : Mention) :
    ∀ (st : List (Str × Mention)), lookupKey k st = some m → (k, m) ∈ st := by
  intro st
  induction st with
  | nil => intro h; rw [lookupKey_nil] at h; exact absurd h (by simp)
  | cons p rest ih =>
    obtain ⟨k0, m0⟩ := p
    intro h
    rw [lookupKey_cons] at h
    by_cases hk : k = k0
    · subst hk
      rw [if_pos rfl] at h
      have hm := Option.some.inj h
      subst hm
      exact List.mem_cons_self _ _
    · rw [if_neg hk] at h
      exact List.mem_cons_of_mem _ (ih h)

theorem mem_lookup_of_nodup (k : Str) (m : Mention) :
    ∀ (st : List (Str × Mention)), (st.map Prod.fst).Nodup → (k, m) ∈ st →
      lookupKey k st = some m := by
  intro st
  induction st with
  | nil => intro _ h; exact absurd h (by simp)
  | cons p rest ih =>
    obtain ⟨k0, m0⟩ := p
    intro hnd hmem
    simp only [List.map_cons, List.nodup_cons] at hnd
    rcases List.mem_cons.mp hmem with h | h
    · injection h with h1 h2
      subst h1; subst h2
      rw [lookupKey_cons, if_pos rfl]
    · by_cases hk : k = k0
      · subst hk
        exact absurd (List.mem_map.mpr ⟨(k, m), h, rfl⟩) hnd.1
      · rw [lookupKey_cons, if_neg hk]
        exact ih hnd.2 h

theorem fst_dedupUpd (k : Str) (m : Mention) :
    ∀ (st : List (Str × Mention)),
      (dedupUpd k m st).map Prod.fst =
        if k ∈ st.map Prod.fst then st.map Prod.fst else st.map Prod.fst ++ [k] := by
  intro st
  induction st with
  | nil =>
    rw [dedupUpd_nil, if_neg (by simp)]
    rfl
  | cons p rest ih =>
    obtain ⟨k0, m0⟩ := p
    rw [dedupUpd_cons]
    by_cases hk : k = k0
    · subst hk
      have hmem : k ∈ ((k, m0) :: rest).map Prod.fst := by
        rw [List.map_cons]
        exact List.mem_cons_self _ _
      rw [if_pos rfl, if_pos hmem]
      by_cases hs : m0.score < m.score
      · rw [if_pos hs, List.map_cons, List.map_cons]
      · rw [if_neg hs]
    · have hiff : (k ∈ ((k0, m0) :: rest).map Prod.fst) ↔ (k ∈ rest.map Prod.fst) := by
        rw [List.map_cons, List.mem_cons]
        exact ⟨fun h => h.resolve_left hk, Or.inr⟩
      rw [if_neg hk]
      by_cases hmem : k ∈ rest.map Prod.fst
      · rw [if_pos (hiff.mpr hmem), List.map_cons, ih, if_pos hmem, List.map_cons]
      · rw [if_neg (fun hh => hmem (hiff.mp hh)), List.map_cons, ih, if_neg hmem,
          List.map_cons, List.cons_append]

theorem nodup_dedupUpd (k : Str) (m : Mention) (st : List (Str × Mention))
    (h : (st.map Prod.fst).Nodup) : ((dedupUpd k m st).map Prod.fst).Nodup := by
  rw [fst_dedupUpd]
  by_cases hmem : k ∈ st.map Prod.fst
  · rw [if_pos hmem]; exact h
  · rw [if_neg hmem]
    simp [List.nodup_append, h, hmem]

theorem nodup_dedup_state (key : Mention → Str) :
    ∀ (l : List Mention) (st : List (Str × Mention)), (st.map Prod.fst).Nodup →
      ((l.foldl (dedupStep key) st).map Prod.fst).Nodup := by
  intro l
  induction l with
  | nil => intro st h; exact h
  | cons m l' ih =>
    intro st h
    rw [List.foldl_cons]
    exact ih _ (nodup_dedupUpd (key m) m st h)

theorem keyed_dedupUpd (key : Mention → Str) (m : Mention) :
    ∀ (st : List (Str × Mention)), (∀ p ∈ st, key p.2 = p.1) →
      ∀ p ∈ dedupUpd (key m) m st, key p.2 = p.1 := by
  intro st
  induction st with
  | nil =>
    intro _ p hp
    rw [dedupUpd_nil] at hp
    rcases List.mem_singleton.mp hp with h
    subst h; rfl
  | cons q rest ih =>
    obtain ⟨k0, m0⟩ := q
    intro h p hp
    rw [dedupUpd_cons] at hp
    by_cases hk : key m = k0
    · rw [if_pos hk] at hp
      by_cases hs : m0.score < m.score
      · rw [if_pos hs] at hp
        rcases List.mem_cons.mp hp with h1 | h1
        · subst h1; exact hk
        · exact h p (List.mem_cons_of_mem _ h1)
      · rw [if_neg hs] at hp
        exact h p hp
    · rw [if_neg hk] at hp
      rcases List.mem_cons.mp hp with h1 | h1
      · subst h1; exact h (k0, m0) (List.mem_cons_self _ _)
      · exact ih (fun q hq => h q (List.mem_cons_of_mem _ hq)) p h1

theorem keyed_dedup_state (key : Mention → Str) :
    ∀ (l : List Mention) (st : List (Str × Mention)), (∀ p ∈ st, key p.2 = p.1) →
      ∀ p ∈ l.foldl (dedupStep key) st, key p.2 = p.1 := by
  intro l
  induction l with
  | nil => intro st h; exact h
  | cons m l' ih =>
    intro st h
    rw [List.foldl_cons]
    exact ih _ (keyed_dedupUpd key m st h)

/-- Decomposition delivered by the left fold of `pickMax`: the result is the
first element of maximal score (everything before it is strictly smaller,
everything after it is not greater). -/
theorem pickMax_foldl_spec :
    ∀ (t : List Mention) (c s : Mention), t.foldl pickMax (some c) = some s →
      ∃ l₁ l₂, c :: t = l₁ ++ s :: l₂ ∧ (∀ x ∈ l₁, x.score < s.score) ∧
        (∀ x ∈ l₂, x.score ≤ s.score) := by
  intro t
  induction t with
  | nil =>
    intro c s h
    rw [List.foldl_nil] at h
    have hcs := Option.some.inj h
    subst hcs
    exact ⟨[], [], rfl, by simp, by simp⟩
  | cons y t' ih =>
    intro c s h
    rw [List.foldl_cons] at h
    by_cases hs : c.score < y.score
    · rw [pickMax_some_lt c y hs] at h
      obtain ⟨l₁, l₂, hdec, hlt, hle⟩ := ih y s h
      have hy : y.score ≤ s.score := by
        cases l₁ with
        | nil =>
          rw [List.nil_append] at hdec
          injection hdec with h1 _
          rw [h1]
        | cons a l₁' =>
          rw [List.cons_append] at hdec
          injection hdec with h1 _
          rw [h1]
          exact le_of_lt (hlt a (List.mem_cons_self _ _))
      refine ⟨c :: l₁, l₂, congrArg (List.cons c) hdec, ?_, hle⟩
      intro x hx
      rcases List.mem_cons.mp hx with h1 | h1
      · subst h1; exact lt_of_lt_of_le hs hy
      · exact hlt x h1
    · rw [pickMax_some_ge c y hs] at h
      obtain ⟨l₁, l₂, hdec, hlt, hle⟩ := ih c s h
      cases l₁ with
      | nil =>
        rw [List.nil_append] at hdec
        injection hdec with h1 h2
        refine ⟨[], y :: t', by rw [← h1]; rfl, by simp, ?_⟩
        intro x hx
        rcases List.mem_cons.mp hx with hxy | hxt
        · subst hxy
          calc x.score ≤ c.score := le_of_not_gt hs
            _ = s.score := by rw [h1]
        · exact hle x (h2 ▸ hxt)
      | cons a l₁' =>
        rw [List.cons_append] at hdec
        injection hdec with h1 h2
        have hcl : c.score < s.score := by
          rw [h1]
          exact hlt a (List.mem_cons_self _ _)
        refine ⟨c :: y :: l₁', l₂, congrArg (fun u => c :: y :: u) h2, ?_, hle⟩
        intro x hx
        rcases List.mem_cons.mp hx with h3 | h3
        · subst h3; exact hcl
        · rcases List.mem_cons.mp h3 with h4 | h4
          · subst h4
            exact lt_of_le_of_lt (le_of_not_gt hs) hcl
          · exact hlt x (List.mem_cons_of_mem _ h4)

theorem pickMax_foldl_isSome :
    ∀ (t : List Mention) (c : Mention), ∃ s, t.foldl pickMax (some c) = some s := by
  intro t
  induction t with
  | nil => intro c; exact ⟨c, rfl⟩
  | cons y t' ih =>
    intro c
    rw [List.foldl_cons]
    by_cases hs : c.score < y.score
    · rw [pickMax_some_lt c y hs]; exact ih y
    · rw [pickMax_some_ge c y hs]; exact ih c

/-- The mention `dedupMentions` keeps for key `k` is computed by folding
`pickMax` over the input mentions whose key is `k`. -/
theorem dedup_lookup_eq (key : Mention → Str) (l : List Mention) (k : Str) :
    lookupKey k (l.foldl (dedupStep key) []) =
      (l.filter (fun m => key m = k)).foldl pickMax none := by
  have h := lookup_dedup_foldl key l [] k
  rw [lookupKey_nil] at h
  exact h

theorem mem_dedup_lookup (key : Mention → Str) (l : List Mention) (m : Mention)
    (h : m ∈ dedupMentions key l) :
    lookupKey (key m) (l.foldl (dedupStep key) []) = some m := by
  obtain ⟨p, hp, hp2⟩ := List.mem_map.mp h
  obtain ⟨k0, m0⟩ := p
  have hm : m0 = m := hp2
  subst hm
  have hkey : key m0 = k0 := keyed_dedup_state key l [] (by simp) _ hp
  rw [hkey]
  exact mem_lookup_of_nodup _ _ _ (nodup_dedup_state key l [] (by simp)) hp

/-- Survivor decomposition: each output mention is the first maximal-score
element of its key's colliding group. -/
theorem dedup_survivor_spec (key : Mention → Str) (l : List Mention) (m : Mention)
    (h : m ∈ dedupMentions key l) :
    ∃ l₁ l₂, l.filter (fun x => key x = key m) = l₁ ++ m :: l₂ ∧
      (∀ x ∈ l₁, x.score < m.score) ∧ (∀ x ∈ l₂, x.score ≤ m.score) := by
  have hl := mem_dedup_lookup key l m h
  rw [dedup_lookup_eq] at hl
  cases hfil : l.filter (fun x => key x = key m) with
  | nil => rw [hfil] at hl; exact absurd hl (by simp)
  | cons f0 ft =>
    rw [hfil, List.foldl_cons] at hl
    rw [show pickMax none f0 = some f0 from rfl] at hl
    obtain ⟨l₁, l₂, hdec, hlt, hle⟩ := pickMax_foldl_spec ft f0 m hl
    exact ⟨l₁, l₂, hdec, hlt, hle⟩

/-- Everything in the dedup output comes from the input. -/
theorem dedup_subset (key : Mention → Str) (l : List Mention) (m : Mention)
    (h : m ∈ dedupMentions key l) : m ∈ l := by
  obtain ⟨l₁, l₂, hdec, -, -⟩ := dedup_survivor_spec key l m h
  have hm : m ∈ l.filter (fun x => key x = key m) := by
    rw [hdec]
    exact List.mem_append_right _ (List.mem_cons_self _ _)
  exact (List.mem_filter.mp hm).1

/-- Exactly one survivor per key. -/
theorem dedup_unique (key : Mention → Str) (l : List Mention) (m₁ m₂ : Mention)
    (h₁ : m₁ ∈ dedupMentions key l) (h₂ : m₂ ∈ dedupMentions key l)
    (hk : key m₁ = key m₂) : m₁ = m₂ := by
  have e₁ := mem_dedup_lookup key l m₁ h₁
  have e₂ := mem_dedup_lookup key l m₂ h₂
  rw [hk] at e₁
  rw [e₁] at e₂
  exact Option.some.inj e₂

/-- Every input mention has a survivor with its key and at least its score. -/
theorem dedup_covers (key : Mention → Str) (l : List Mention) (m : Mention)
    (h : m ∈ l) : ∃ s ∈ dedupMentions key l, key s = key m ∧ m.score ≤ s.score := by
  have hfl : m ∈ l.filter (fun x => key x = key m) :=
    List.mem_filter.mpr ⟨h, by simp⟩
  cases hfil : l.filter (fun x => key x = key m) with
  | nil => rw [hfil] at hfl; exact absurd hfl (by simp)
  | cons f0 ft =>
    obtain ⟨s, hs⟩ := pickMax_foldl_isSome ft f0
    have hlook : lookupKey (key m) (l.foldl (dedupStep key) []) = some s := by
      rw [dedup_lookup_eq, hfil, List.foldl_cons]
      exact hs
    have hsmem : (key m, s) ∈ l.foldl (dedupStep key) [] := lookup_mem _ _ _ hlook
    have hsout : s ∈ dedupMentions key l := List.mem_map.mpr ⟨(key m, s), hsmem, rfl⟩
    have hskey : key s = key m := keyed_dedup_state key l [] (by simp) _ hsmem
    obtain ⟨l₁, l₂, hdec, hlt, hle⟩ := pickMax_foldl_spec ft f0 s hs
    have hmle : m.score ≤ s.score := by
      have hm2 : m ∈ l₁ ++ s :: l₂ := by rw [← hdec, ← hfil]; exact hfl
      rcases List.mem_append.mp hm2 with h1 | h1
      · exact le_of_lt (hlt m h1)
      · rcases List.mem_cons.mp h1 with h2 | h2
        · rw [h2]
        · exact hle m h2
    exact ⟨s, hsout, hskey, hmle⟩

/-! Invariants of the mention builders. -/

/-- What holds of every mention the builders construct: validity admitted by
the hard reject, the request fields copied through, and the validity score
produced by `is_valid_product` on the mention's own name. -/
def BuiltInv (product : Str) (attrs : List Str) (m : Mention) : Prop :=
  0 ≤ m.validity_score ∧ m.product_type = product ∧ m.attributes = attrs ∧
    ∃ ctx, m.validity_score = is_valid_product m.product ctx product

theorem foldl_preserve {β : Type} (P : Mention → Prop) (f : List Mention → β → List Mention)
    (hf : ∀ ms b, (∀ m ∈ ms, P m) → ∀ m ∈ f ms b, P m) :
    ∀ (l : List β) (ms : List Mention), (∀ m ∈ ms, P m) → ∀ m ∈ l.foldl f ms, P m := by
  intro l
  induction l with
  | nil => intro ms h; exact h
  | cons b l' ih =>
    intro ms h
    rw [List.foldl_cons]
    exact ih _ (hf ms b h)

theorem mem_append_singleton {m x : Mention} {ms : List Mention} (h : m ∈ ms ++ [x]) :
    m ∈ ms ∨ m = x := by
  rcases List.mem_append.mp h with h1 | h1
  · exact Or.inl h1
  · exact Or.inr (List.mem_singleton.mp h1)

theorem firstPassComment_preserve (caps : Caps) (product : Str) (attrs : List Str) (url : Str) :
    ∀ (ms : List Mention) (c : RedditComment), (∀ m ∈ ms, BuiltInv product attrs m) →
      ∀ m ∈ redditFirstPassComment caps product attrs url ms c, BuiltInv product attrs m := by
  intro ms c h m hm
  simp only [redditFirstPassComment] at hm
  split at hm
  · exact h m hm
  · revert m hm
    refine foldl_preserve _ _ ?_ (caps.extract_product_models c.text) ms h
    intro acc model hacc m' hm'
    split at hm'
    · exact hacc m' hm'
    · next hv =>
      rcases mem_append_singleton hm' with h1 | h1
      · exact hacc m' h1
      · subst h1
        exact ⟨le_of_not_lt hv, rfl, rfl, ⟨c.text, rfl⟩⟩

theorem secondPassComment_preserve (caps : Caps) (product : Str) (attrs : List Str) (url : Str) :
    ∀ (ms : List Mention) (c : RedditComment), (∀ m ∈ ms, BuiltInv product attrs m) →
      ∀ m ∈ redditSecondPassComment caps product attrs url ms c, BuiltInv product attrs m := by
  intro ms c h m hm
  rw [redditSecondPassComment] at hm
  cases hx : caps.extract_model_from_text c.text product with
  | none => rw [hx] at hm; exact h m hm
  | some model =>
    rw [hx] at hm
    dsimp only at hm
    split at hm
    · exact h m hm
    · split at hm
      · exact h m hm
      · next hv =>
        split at hm
        · exact h m hm
        · rcases mem_append_singleton hm with h1 | h1
          · exact h m h1
          · subst h1
            exact ⟨le_of_not_lt hv, rfl, rfl, ⟨c.text, rfl⟩⟩

theorem threadStep_preserve (caps : Caps) (product : Str) (attrs : List Str) :
    ∀ (ms : List Mention) (t : RedditThread), (∀ m ∈ ms, BuiltInv product attrs m) →
      ∀ m ∈ redditThreadStep caps product attrs ms t, BuiltInv product attrs m := by
  intro ms t h m hm
  rw [redditThreadStep] at hm
  have h1 : ∀ m ∈ redditFirstPass caps product attrs ms t, BuiltInv product attrs m :=
    foldl_preserve _ _ (firstPassComment_preserve caps product attrs t.url) t.comments ms h
  split at hm
  · exact foldl_preserve _ _ (secondPassComment_preserve caps product attrs t.url)
      t.comments _ h1 m hm
  · exact h1 m hm

theorem redditRaw_inv (caps : Caps) (threads : List RedditThread) (product : Str)
    (attrs : List Str) :
    ∀ m ∈ redditMentionsRaw caps threads product attrs, BuiltInv product attrs m :=
  foldl_preserve _ _ (threadStep_preserve caps product attrs) threads [] (by simp)

theorem ytVideoStep_preserve (caps : Caps) (product : Str) (attrs : List Str) :
    ∀ (ms : List Mention) (v : Video), (∀ m ∈ ms, BuiltInv product attrs m) →
      ∀ m ∈ ytVideoStep caps product attrs ms v, BuiltInv product attrs m := by
  intro ms v h m hm
  simp only [ytVideoStep] at hm
  split at hm
  · exact h m hm
  · revert m hm
    refine foldl_preserve _ _ ?_ (caps.extract_product_models v.transcript) ms h
    intro acc model hacc m' hm'
    split at hm'
    · exact hacc m' hm'
    · next hv =>
      rcases mem_append_singleton hm' with h1 | h1
      · exact hacc m' h1
      · subst h1
        exact ⟨le_of_not_lt hv, rfl, rfl, ⟨v.transcript, rfl⟩⟩

theorem ytRaw_inv (caps : Caps) (videos : List Video) (product : Str) (attrs : List Str) :
    ∀ m ∈ ytMentionsRaw caps videos product attrs, BuiltInv product attrs m :=
  foldl_preserve _ _ (ytVideoStep_preserve caps product attrs) videos [] (by simp)

theorem reddit_ranked_inv (caps : Caps) (threads : List RedditThread) (product : Str)
    (attrs : List Str) :
    ∀ m ∈ reddit_ranked caps threads product attrs,
      BuiltInv product attrs m ∧ m.score = redditRankScore product attrs m := by
  intro m hm
  have hm' : m ∈ scoreRedditMentions product attrs (redditMentionsRaw caps threads product attrs) :=
    (mem_sortDesc _ _ _).mp hm
  obtain ⟨m₀, hm₀, he⟩ := List.mem_map.mp hm'
  subst he
  exact ⟨redditRaw_inv caps threads product attrs m₀ hm₀, rfl⟩

theorem yt_ranked_inv (caps : Caps) (videos : List Video) (product : Str) (attrs : List Str) :
    ∀ m ∈ yt_ranked caps videos product attrs,
      BuiltInv product attrs m ∧ m.score = ytRankScore product attrs m := by
  intro m hm
  have hm' : m ∈ scoreYtMentions product attrs (ytMentionsRaw caps videos product attrs) :=
    (mem_sortDesc _ _ _).mp hm
  obtain ⟨m₀, hm₀, he⟩ := List.mem_map.mp hm'
  subst he
  exact ⟨ytRaw_inv caps videos product attrs m₀ hm₀, rfl⟩

theorem process_reddit_inv (caps : Caps) (threads : List RedditThread) (product : Str)
    (attrs : List Str) :
    ∀ m ∈ process_reddit_data caps threads product attrs,
      BuiltInv product attrs m ∧ m.score = redditRankScore product attrs m :=
  fun m hm => reddit_ranked_inv caps threads product attrs m (dedup_subset _ _ _ hm)

theorem process_yt_inv (caps : Caps) (videos : List Video) (product : Str) (attrs : List Str) :
    ∀ m ∈ process_youtube_data caps videos product attrs,
      BuiltInv product attrs m ∧ m.score = ytRankScore product attrs m :=
  fun m hm => yt_ranked_inv caps videos product attrs m (dedup_subset _ _ _ hm)

/-! Facts about the empty candidate name, for C9. -/

theorem pyFind_nil_needle (hay : Str) : pyFind hay [] = some 0 := by
  cases hay with
  | nil => rfl
  | cons c t => rfl

theorem ivpCatPart_nil (ptl : Str) : ivpCatPart [] [] ptl = 0 := by
  rw [ivpCatPart]
  split
  · decide
  · split
    · decide
    · rfl

theorem ivpCtxPart_nil_le (ctx : Str) : ivpCtxPart [] ctx ≤ 1 := by
  by_cases hc : ctx = []
  · simp [ivpCtxPart, hc]
  · simp only [ivpCtxPart, if_neg hc]
    rw [pyFind_nil_needle]
    have h2 : containsAny ownershipTerms (pySlice (lowerStr ctx) (0 - 50) 0) = false := by
      have he : pySlice (lowerStr ctx) (0 - 50) 0 = [] := by simp [pySlice]
      rw [he]; decide
    by_cases ho : containsAny ownershipTerms (lowerStr ctx) <;>
      by_cases hr : containsAny recommendTerms (lowerStr ctx) <;>
        simp [ho, hr, h2]

/-! Concrete inputs used by the witnesses. -/

def thW : RedditThread :=
  ⟨"t".data, "http://u1".data, [⟨"I bought the Dyson V15 Detect and love it".data, 200⟩]⟩

def capsW : Caps := capsConst ["Dyson V15 Detect".data] 1

def vidW : Video :=
  ⟨"Dyson V15 Detect review".data, "http://v1".data,
    "I bought the Dyson V15 Detect and love it".data, 20000, 100⟩

/-- The one mention `process_reddit_data capsW [thW] "vacuum cleaner" ["cordless"]` keeps. -/
def mW : Mention :=
  { product := "Dyson V15 Detect".data, upvotes := 200, views := 0, likes := 0, title := [],
    sentiment := 1, source := "http://u1".data, description := [], validity_score := 8,
    product_type := "vacuum cleaner".data, attributes := ["cordless".data], score := 21 }

/-- Its raw (pre-scoring) form. -/
def mWraw : Mention := { mW with score := 0 }

/-- The one mention `process_youtube_data capsW [vidW] …` keeps. -/
def mWyt : Mention :=
  { product := "Dyson V15 Detect".data, upvotes := 0, views := 20000, likes := 100,
    title := "Dyson V15 Detect review".data, sentiment := 1, source := "http://v1".data,
    description := [], validity_score := 8, product_type := "vacuum cleaner".data,
    attributes := ["cordless".data], score := 19 }

/-- C1: every mention in the lists returned by `process_reddit_data` and
`process_youtube_data` — and already every mention the builders ever
construct — has `validity_score ≥ 0`: a candidate with a negative validity
score is dropped at mention-build time (`if validity_score < 0: continue`)
and never becomes a mention. -/
theorem claim_C1 (caps : Caps) (product : Str) (attrs : List Str)
    (threads : List RedditThread) (videos : List Video) :
    (∀ m ∈ process_reddit_data caps threads product attrs, 0 ≤ m.validity_score) ∧
    (∀ m ∈ process_youtube_data caps videos product attrs, 0 ≤ m.validity_score) ∧
    (∀ m ∈ redditMentionsRaw caps threads product attrs, 0 ≤ m.validity_score) ∧
    (∀ m ∈ ytMentionsRaw caps videos product attrs, 0 ≤ m.validity_score) :=
  ⟨fun m hm => (process_reddit_inv caps threads product attrs m hm).1.1,
   fun m hm => (process_yt_inv caps videos product attrs m hm).1.1,
   fun m hm => (redditRaw_inv caps threads product attrs m hm).1,
   fun m hm => (ytRaw_inv caps videos product attrs m hm).1⟩

theorem claim_C1_witness :
    mW ∈ process_reddit_data capsW [thW] "vacuum cleaner".data ["cordless".data] ∧
    0 ≤ mW.validity_score :=
  ⟨by decide,
   (claim_C1 capsW "vacuum cleaner".data ["cordless".data] [thW] []).1 mW (by decide)⟩

/-- C2: every mention output by the Aggregator carries exactly the per-source
rank score: forum-style `sentiment*5 + min(5, upvotes/10) + 2*clamp(validity,
0, 5) + 1 per matching query term + 1 if the name is longer than 8`;
video-style `sentiment*3 + min(3, likes/100) + min(4, views/10000) +
2*clamp(validity, 0, 5) + 3 for a title occurrence + 1 per matching query
term`. -/
theorem claim_C2 (caps : Caps) (product : Str) (attrs : List Str)
    (threads : List RedditThread) (videos : List Video) :
    (∀ m ∈ process_reddit_data caps threads product attrs,
       m.score = m.sentiment * 5 + min 5 ((m.upvotes : ℚ) / 10)
         + ((min 5 (max 0 m.validity_score) : Int) : ℚ) * 2
         + (((product_type_terms product attrs).countP
              (fun t => substrIn t (lowerStr m.product)) : Nat) : ℚ)
         + (if 8 < m.product.length then 1 else 0)) ∧
    (∀ m ∈ process_youtube_data caps videos product attrs,
       m.score = m.sentiment * 3 + min 3 ((m.likes : ℚ) / 100) + min 4 ((m.views : ℚ) / 10000)
         + ((min 5 (max 0 m.validity_score) : Int) : ℚ) * 2
         + (if substrIn (lowerStr m.product) (lowerStr m.title) then 3 else 0)
         + (((product_type_terms product attrs).countP
              (fun t => substrIn t (lowerStr m.product)) : Nat) : ℚ)) :=
  ⟨fun m hm => (process_reddit_inv caps threads product attrs m hm).2,
   fun m hm => (process_yt_inv caps videos product attrs m hm).2⟩

theorem claim_C2_witness :
    (mW ∈ process_reddit_data capsW [thW] "vacuum cleaner".data ["cordless".data] ∧
      mW.score = mW.sentiment * 5 + min 5 ((mW.upvotes : ℚ) / 10)
        + ((min 5 (max 0 mW.validity_score) : Int) : ℚ) * 2
        + (((product_type_terms "vacuum cleaner".data ["cordless".data]).countP
             (fun t => substrIn t (lowerStr mW.product)) : Nat) : ℚ)
        + (if 8 < mW.product.length then 1 else 0)) ∧
    (mWyt ∈ process_youtube_data capsW [vidW] "vacuum cleaner".data ["cordless".data] ∧
      mWyt.score = mWyt.sentiment * 3 + min 3 ((mWyt.likes : ℚ) / 100)
        + min 4 ((mWyt.views : ℚ) / 10000)
        + ((min 5 (max 0 mWyt.validity_score) : Int) : ℚ) * 2
        + (if substrIn (lowerStr mWyt.product) (lowerStr mWyt.title) then 3 else 0)
        + (((product_type_terms "vacuum cleaner".data ["cordless".data]).countP
             (fun t => substrIn t (lowerStr mWyt.product)) : Nat) : ℚ)) :=
  ⟨⟨by decide,
    (claim_C2 capsW "vacuum cleaner".data ["cordless".data] [thW] []).1 mW (by decide)⟩,
   ⟨by decide,
    (claim_C2 capsW "vacuum cleaner".data ["cordless".data] [] [vidW]).2 mWyt (by decide)⟩⟩

/-- C9: an empty extracted name always receives a negative score from
`is_valid_product` (for every context and product type), so it is
hard-rejected before becoming a mention; consequently every mention the
pipeline ever builds, and every mention in the final lists, has a non-empty
product name. -/
theorem claim_C9 (caps : Caps) (product : Str) (attrs : List Str)
    (threads : List RedditThread) (videos : List Video) :
    (∀ ctx ptype : Str, is_valid_product [] ctx ptype < 0) ∧
    (∀ m ∈ redditMentionsRaw caps threads product attrs, m.product ≠ []) ∧
    (∀ m ∈ ytMentionsRaw caps videos product attrs, m.product ≠ []) ∧
    (∀ m ∈ process_reddit_data caps threads product attrs, m.product ≠ []) ∧
    (∀ m ∈ process_youtube_data caps videos product attrs, m.product ≠ []) := by
  have hneg : ∀ ctx ptype : Str, is_valid_product [] ctx ptype < 0 := by
    intro ctx ptype
    show ivpLenPart [] + ivpLetterPart [] + ivpBrandPart [] (lowerStr [])
        + ivpCatPart [] (lowerStr []) (lowerStr ptype) + ivpCtxPart (lowerStr []) ctx < 0
    have h0 : (lowerStr [] : Str) = [] := rfl
    rw [h0]
    have h1 : ivpLenPart [] = -3 := by decide
    have h2 : ivpLetterPart [] = -1 := by decide
    have h3 : ivpBrandPart [] [] = -1 := by decide
    have h4 := ivpCatPart_nil (lowerStr ptype)
    have h5 := ivpCtxPart_nil_le ctx
    omega
  have hne : ∀ (p : Str) (a : List Str) (m : Mention), BuiltInv p a m → m.product ≠ [] := by
    intro p a m hB hnil
    obtain ⟨hv, -, -, ctx, hctx⟩ := hB
    rw [hnil] at hctx
    have := hneg ctx p
    omega
  refine ⟨hneg, ?_, ?_, ?_, ?_⟩
  · exact fun m hm => hne product attrs m (redditRaw_inv caps threads product attrs m hm)
  · exact fun m hm => hne product attrs m (ytRaw_inv caps videos product attrs m hm)
  · exact fun m hm => hne product attrs m (process_reddit_inv caps threads product attrs m hm).1
  · exact fun m hm => hne product attrs m (process_yt_inv caps videos product attrs m hm).1

theorem claim_C9_witness :
    is_valid_product [] "I bought it and it is the best".data "gaming pc".data < 0 ∧
    (mWraw ∈ redditMentionsRaw capsW [thW] "vacuum cleaner".data ["cordless".data] ∧
      mWraw.product ≠ []) :=
  ⟨(claim_C9 capsW "vacuum cleaner".data ["cordless".data] [thW] []).1
      "I bought it and it is the best".data "gaming pc".data,
   ⟨by decide,
    (claim_C9 capsW "vacuum cleaner".data ["cordless".data] [thW] []).2.1 mWraw (by decide)⟩⟩

/-- C10: in the forum pipeline the regex fallback pass over a thread's
comments runs only when fewer than 2 mentions have accumulated so far across
all threads (checked after the thread's first pass), and the fallback pass
never adds a mention whose lowercase name equals an already-collected
mention's lowercase product name. -/
theorem claim_C10 (caps : Caps) (product : Str) (attrs : List Str) :
    (∀ (ms : List Mention) (t : RedditThread),
        2 ≤ (redditFirstPass caps product attrs ms t).length →
        redditThreadStep caps product attrs ms t = redditFirstPass caps product attrs ms t) ∧
    (∀ (url : Str) (ms : List Mention) (c : RedditComment),
        redditSecondPassComment caps product attrs url ms c = ms ∨
        ∃ mnew, redditSecondPassComment caps product attrs url ms c = ms ++ [mnew] ∧
          ∀ m ∈ ms, lowerStr m.product ≠ lowerStr mnew.product) := by
  constructor
  · intro ms t h
    rw [redditThreadStep, if_neg (by omega)]
  · intro url ms c
    rw [redditSecondPassComment]
    cases hx : caps.extract_model_from_text c.text product with
    | none => exact Or.inl rfl
    | some model =>
      dsimp only
      split
      · exact Or.inl rfl
      · split
        · exact Or.inl rfl
        · split
          · exact Or.inl rfl
          · next hany =>
            refine Or.inr ⟨_, rfl, ?_⟩
            intro m hm heq
            exact hany (List.any_eq_true.mpr ⟨m, hm, by simpa using heq⟩)

def caps2W : Caps := capsConst ["Dyson V15 Detect".data, "Shark Navigator 300".data] 1

theorem claim_C10_witness :
    2 ≤ (redditFirstPass caps2W "vacuum cleaner".data [] [] thW).length ∧
    redditThreadStep caps2W "vacuum cleaner".data [] [] thW =
      redditFirstPass caps2W "vacuum cleaner".data [] [] thW :=
  ⟨by decide, (claim_C10 caps2W "vacuum cleaner".data []).1 [] thW (by decide)⟩

/-- C3 as amended: deduplication is keyed per stream — the forum stream by
the alphanumeric-only lowercase normalization, but the video stream merely
by `lower().strip()` (punctuation and inner spaces kept).  Within each
stream and key exactly one mention survives, the survivor's rank score is
the maximum of its colliding group, and on ties the first mention of the
ranked (score-sorted) list survives: the group decomposes as strictly
smaller scores before the survivor and no greater scores after it. -/
theorem claim_C3_amended (caps : Caps) (product : Str) (attrs : List Str)
    (threads : List RedditThread) (videos : List Video) :
    ((∀ m₁ ∈ process_reddit_data caps threads product attrs,
        ∀ m₂ ∈ process_reddit_data caps threads product attrs,
          redditKey m₁ = redditKey m₂ → m₁ = m₂) ∧
     (∀ m ∈ reddit_ranked caps threads product attrs,
        ∃ s ∈ process_reddit_data caps threads product attrs,
          redditKey s = redditKey m ∧ m.score ≤ s.score) ∧
     (∀ s ∈ process_reddit_data caps threads product attrs,
        ∃ l₁ l₂, (reddit_ranked caps threads product attrs).filter
            (fun x => redditKey x = redditKey s) = l₁ ++ s :: l₂ ∧
          (∀ x ∈ l₁, x.score < s.score) ∧ (∀ x ∈ l₂, x.score ≤ s.score))) ∧
    ((∀ m₁ ∈ process_youtube_data caps videos product attrs,
        ∀ m₂ ∈ process_youtube_data caps videos product attrs,
          ytKey m₁ = ytKey m₂ → m₁ = m₂) ∧
     (∀ m ∈ yt_ranked caps videos product attrs,
        ∃ s ∈ process_youtube_data caps videos product attrs,
          ytKey s = ytKey m ∧ m.score ≤ s.score) ∧
     (∀ s ∈ process_youtube_data caps videos product attrs,
        ∃ l₁ l₂, (yt_ranked caps videos product attrs).filter
            (fun x => ytKey x = ytKey s) = l₁ ++ s :: l₂ ∧
          (∀ x ∈ l₁, x.score < s.score) ∧ (∀ x ∈ l₂, x.score ≤ s.score))) :=
  ⟨⟨fun m₁ h₁ m₂ h₂ hk => dedup_unique redditKey _ m₁ m₂ h₁ h₂ hk,
    fun m hm => dedup_covers redditKey _ m hm,
    fun s hs => dedup_survivor_spec redditKey _ s hs⟩,
   ⟨fun m₁ h₁ m₂ h₂ hk => dedup_unique ytKey _ m₁ m₂ h₁ h₂ hk,
    fun m hm => dedup_covers ytKey _ m hm,
    fun s hs => dedup_survivor_spec ytKey _ s hs⟩⟩

theorem claim_C3_amended_witness :
    mW ∈ process_reddit_data capsW [thW] "vacuum cleaner".data ["cordless".data] ∧
    (∃ s ∈ process_reddit_data capsW [thW] "vacuum cleaner".data ["cordless".data],
      redditKey s = redditKey mW ∧ mW.score ≤ s.score) :=
  ⟨by decide,
   (claim_C3_amended capsW "vacuum cleaner".data ["cordless".data] [thW] []).1.2.1 mW
     (by decide)⟩

def vidC3 : Video := ⟨[], "http://v".data, "x".data, 0, 0⟩

def capsC3 : Caps := capsConst ["ABC-1 23".data, "abc123".data] (1/2)

/-- C3 counterexample: in the video stream, two surviving mentions whose
names normalize identically under the claimed strip-non-alphanumeric
lowercase key (`redditKey`) — the code deduplicates the video stream only by
`lower().strip()`, so both survive, refuting "exactly one of them
survives". -/
theorem claim_C3_counterexample :
    (process_youtube_data capsC3 [vidC3] "widget".data []).map (fun m => m.product)
      = ["ABC-1 23".data, "abc123".data] ∧
    (process_youtube_data capsC3 [vidC3] "widget".data []).map (fun m => redditKey m)
      = ["abc123".data, "abc123".data] := by decide

def mRtxC4 : Mention :=
  { product := "RTX 4090".data, upvotes := 10, views := 0, likes := 0, title := [],
    sentiment := 1, source := "http://a".data, description := [], validity_score := 4,
    product_type := "gaming pc".data, attributes := [], score := 10 }

def mAlienC4 : Mention :=
  { mRtxC4 with
    product := "Alienware Aurora R16".data, validity_score := 6,
    score := 5, source := "http://b".data }

/-- C4: for a system-category request (first mention's product type contains
desktop/pc/computer/gaming pc/laptop), whenever at least one mention
partitions as a complete system the category filter selects only from the
systems partition; and in the concrete gaming-pc scenario with the component
"RTX 4090" (validity 4, even with the higher rank score) and the prebuilt
"Alienware Aurora R16" (validity 6), the final Recommendation.product is
"Alienware Aurora R16". -/
theorem claim_C4 :
    (∀ ms : List Mention, is_system_search ms = true → systemsOf ms ≠ [] →
       ∀ m ∈ selectedProducts ms, m ∈ systemsOf ms) ∧
    ((format_recommendation fcId [mRtxC4, mAlienC4] "reddit".data).map
        (fun r => r.product) = some "Alienware Aurora R16".data) := by
  constructor
  · intro ms hsys hne m hm
    rw [selectedProducts, if_pos hsys] at hm
    have hne' : (!(systemsOf ms).isEmpty) = true := by
      cases hsy : systemsOf ms with
      | nil => exact absurd hsy hne
      | cons a l => rfl
    rw [if_pos hne'] at hm
    split at hm
    · exact (List.mem_filter.mp hm).1
    · exact hm
  · decide

theorem claim_C4_witness :
    is_system_search [mRtxC4, mAlienC4] = true ∧
    systemsOf [mRtxC4, mAlienC4] ≠ [] ∧
    mAlienC4 ∈ selectedProducts [mRtxC4, mAlienC4] ∧
    mAlienC4 ∈ systemsOf [mRtxC4, mAlienC4] :=
  ⟨by decide, by decide, by decide,
   claim_C4.1 [mRtxC4, mAlienC4] (by decide) (by decide) mAlienC4 (by decide)⟩

def mC5 : Mention :=
  { product := "Ryzen Threadripper 3990X Processor".data, upvotes := 0, views := 0,
    likes := 0, title := [], sentiment := 0, source := [], description := [],
    validity_score := 0, product_type := "gaming pc".data, attributes := [], score := 0 }

/-- The component heuristic the claim describes, from the Validity Scorer's
§4.2 rules: the scorer's bare-GPU pattern `(rtx|gtx|radeon)\s*\d{4}` with no
system keyword and a short (< 20) name, or a scorer component keyword with a
short (< 15) name and no system keyword, overridden by a known prebuilt
brand. -/
def scorerComponentHeuristic (name : Str) : Bool :=
  let pl := lowerStr name
  ((searchKwNum4 (["rtx", "gtx", "radeon"].map String.data) pl).isSome
      && !(containsAny scorerSysKws pl) && decide (name.length < 20)
    || containsAny scorerCompKws pl && decide (name.length < 15)
      && !(containsAny scorerSysKws pl))
  && !(containsAny scorerPrebuiltBrands pl)

/-- C5 counterexample: "Ryzen Threadripper 3990X Processor" (34 characters,
component keyword `ryzen`, no system keyword, no prebuilt brand) is
classified as a component by the category filter — whose keyword branch has
no short-name requirement — but not by the scorer heuristic the claim says
the filter shares, since the name is not short. -/
theorem claim_C5_counterexample :
    is_component mC5 = true ∧ scorerComponentHeuristic mC5.product = false := by decide

/-- C5 amended: the category filter's classification in closed form.  It
resembles the scorer's heuristic but is not the same: its GPU pattern is
`(rtx|gtx|radeon rx|arc)\s*[a-z]?\d{3,4}`, its system-keyword list adds
`laptop`, its component-keyword list adds `amd`, `cpu`, `memory` (etc.), its
keyword branch carries no short-name bound, and its prebuilt-brand override
list adds `dell xps`, `ibuypower`, `cyberpower`. -/
theorem claim_C5_amended (p : Mention) :
    is_component p =
      ((filterGpuSearch (lowerStr p.product)
          && !(containsAny filterSysKws (lowerStr p.product))
          && decide ((lowerStr p.product).length < 20)
        || containsAny filterCompKws (lowerStr p.product)
          && !(containsAny filterSysKws (lowerStr p.product)))
        && !(containsAny filterSystemBrands (lowerStr p.product))) := by
  simp only [is_component]
  by_cases hb : containsAny filterSystemBrands (lowerStr p.product) <;>
    by_cases hg : filterGpuSearch (lowerStr p.product) <;>
      by_cases hsy : containsAny filterSysKws (lowerStr p.product) <;>
        by_cases hk : containsAny filterCompKws (lowerStr p.product) <;>
          by_cases hl : (lowerStr p.product).length < 20 <;>
            simp [hb, hg, hsy, hk, hl]

/-! Sanitization lemmas. -/

theorem not_isEmpty_iff {α : Type} (l : List α) : (!l.isEmpty) = true ↔ l ≠ [] := by
  cases l <;> simp

theorem mem_collapseWsAux :
    ∀ (b : Bool) (s : Str) (c : Char), c ∈ collapseWsAux b s →
      c = ' ' ∨ (c ∈ s ∧ isSpaceA c = false) := by
  intro b s
  induction s generalizing b with
  | nil => intro c h; rw [collapseWsAux] at h; exact absurd h (by simp)
  | cons d t ih =>
    intro c h
    rw [collapseWsAux] at h
    split at h
    · split at h
      · rcases ih true c h with h1 | h1
        · exact Or.inl h1
        · exact Or.inr ⟨List.mem_cons_of_mem _ h1.1, h1.2⟩
      · rcases List.mem_cons.mp h with h1 | h1
        · exact Or.inl h1
        · rcases ih true c h1 with h2 | h2
          · exact Or.inl h2
          · exact Or.inr ⟨List.mem_cons_of_mem _ h2.1, h2.2⟩
    · next hd =>
      rcases List.mem_cons.mp h with h1 | h1
      · subst h1
        exact Or.inr ⟨List.mem_cons_self _ _, by simpa using hd⟩
      · rcases ih false c h1 with h2 | h2
        · exact Or.inl h2
        · exact Or.inr ⟨List.mem_cons_of_mem _ h2.1, h2.2⟩

/-- No two adjacent space characters. -/
def NoTwoSpaces (l : Str) : Prop := List.Chain' (fun a b => ¬(a = ' ' ∧ b = ' ')) l

theorem collapseWsAux_good :
    ∀ s : Str, NoTwoSpaces (collapseWsAux false s) ∧ NoTwoSpaces (collapseWsAux true s) ∧
      ∀ c, (collapseWsAux true s).head? = some c → c ≠ ' ' := by
  intro s
  induction s with
  | nil =>
    refine ⟨List.chain'_nil, List.chain'_nil, ?_⟩
    intro c h
    rw [collapseWsAux] at h
    exact absurd h (by simp)
  | cons d t ih =>
    obtain ⟨ihF, ihT, ihH⟩ := ih
    by_cases hd : isSpaceA d
    · have e1 : collapseWsAux false (d :: t) = ' ' :: collapseWsAux true t := by
        rw [collapseWsAux, if_pos hd]
        rfl
      have e2 : collapseWsAux true (d :: t) = collapseWsAux true t := by
        rw [collapseWsAux, if_pos hd]
        rfl
      refine ⟨?_, ?_, ?_⟩
      · rw [NoTwoSpaces, e1, List.chain'_cons']
        refine ⟨?_, ihT⟩
        intro y hy
        intro hcontra
        exact ihH y hy hcontra.2
      · rw [NoTwoSpaces, e2]; exact ihT
      · rw [e2]; exact ihH
    · have e3 : collapseWsAux false (d :: t) = d :: collapseWsAux false t := by
        rw [collapseWsAux, if_neg hd]
      have e4 : collapseWsAux true (d :: t) = d :: collapseWsAux false t := by
        rw [collapseWsAux, if_neg hd]
      have hchain : NoTwoSpaces (d :: collapseWsAux false t) := by
        rw [NoTwoSpaces, List.chain'_cons']
        refine ⟨?_, ihF⟩
        intro y _ hcontra
        apply hd
        rw [hcontra.1]
        rfl
      refine ⟨?_, ?_, ?_⟩
      · rw [NoTwoSpaces, e3]; exact hchain
      · rw [NoTwoSpaces, e4]; exact hchain
      · rw [e4]
        intro c hc heq
        apply hd
        have hdc : d = c := by simpa using hc
        rw [hdc, heq]
        rfl

theorem mem_stripStr {c : Char} {l : Str} (h : c ∈ stripStr l) : c ∈ l := by
  rw [stripStr] at h
  rw [List.mem_reverse] at h
  have h1 := ((List.dropWhile_suffix isSpaceA).sublist).subset h
  rw [List.mem_reverse] at h1
  exact ((List.dropWhile_suffix isSpaceA).sublist).subset h1

theorem noTwoSpaces_stripStr {l : Str} (h : NoTwoSpaces l) : NoTwoSpaces (stripStr l) := by
  have hsymm : ∀ {u : Str}, NoTwoSpaces u → NoTwoSpaces u.reverse := by
    intro u hu
    rw [NoTwoSpaces, List.chain'_reverse]
    refine hu.imp ?_
    intro a b hab hc
    exact hab ⟨hc.2, hc.1⟩
  have h1 : NoTwoSpaces (l.dropWhile isSpaceA) := h.suffix (List.dropWhile_suffix _)
  have h2 := hsymm h1
  have h3 : NoTwoSpaces ((l.dropWhile isSpaceA).reverse.dropWhile isSpaceA) :=
    h2.suffix (List.dropWhile_suffix _)
  exact hsymm h3

theorem head?_dropWhile_not_p {p : Char → Bool} :
    ∀ (l : Str) {c : Char}, (l.dropWhile p).head? = some c → p c = false := by
  intro l
  induction l with
  | nil => intro c h; exact absurd h (by simp)
  | cons d t ih =>
    intro c h
    rw [List.dropWhile_cons] at h
    split at h
    · exact ih h
    · next hp =>
      have : d = c := by simpa using h
      subst this
      simpa using hp

theorem stripStr_eq_rdropWhile (l : Str) :
    stripStr l = (l.dropWhile isSpaceA).rdropWhile isSpaceA := rfl

theorem prefix_head_eq {u w : Str} (h : u <+: w) {c : Char} (hc : u.head? = some c) :
    w.head? = some c := by
  obtain ⟨t, ht⟩ := h
  subst ht
  cases u with
  | nil => exact absurd hc (by simp)
  | cons a u' =>
    rw [List.cons_append]
    simpa using hc

theorem stripStr_head {l : Str} {c : Char} (h : (stripStr l).head? = some c) :
    isSpaceA c = false := by
  rw [stripStr_eq_rdropWhile] at h
  have h1 := prefix_head_eq (List.rdropWhile_prefix _ _) h
  exact head?_dropWhile_not_p l h1

theorem stripStr_last {l : Str} {c : Char} (h : (stripStr l).getLast? = some c) :
    isSpaceA c = false := by
  rw [stripStr_eq_rdropWhile] at h
  have hmem : c ∈ ((l.dropWhile isSpaceA).rdropWhile isSpaceA).getLast? := h
  obtain ⟨hne, hc⟩ := List.mem_getLast?_eq_getLast hmem
  have := List.rdropWhile_last_not isSpaceA (l.dropWhile isSpaceA) hne
  rw [← hc] at this
  simpa using this

theorem sanitize_chars (s : Str) :
    ∀ c ∈ sanitizeName s, isWordA c = true ∨ c = ' ' ∨ c = '-' := by
  intro c hc
  rw [sanitizeName] at hc
  have h1 := mem_stripStr hc
  rcases mem_collapseWsAux false _ c h1 with h2 | h2
  · exact Or.inr (Or.inl h2)
  · have h3 := List.mem_filter.mp h2.1
    have h4 := h3.2
    have h5 := h2.2
    simp only [Bool.or_eq_true, decide_eq_true_eq] at h4
    rcases h4 with (h6 | h6) | h6
    · exact Or.inl h6
    · rw [h5] at h6; exact absurd h6 (by simp)
    · exact Or.inr (Or.inr h6)

theorem sanitize_chain (s : Str) : NoTwoSpaces (sanitizeName s) :=
  noTwoSpaces_stripStr (collapseWsAux_good _).1

theorem sanitize_head (s : Str) : ∀ c, (sanitizeName s).head? = some c → c ≠ ' ' := by
  intro c hc heq
  have := stripStr_head hc
  rw [heq] at this
  exact absurd this (by simp [isSpaceA])

theorem sanitize_last (s : Str) : ∀ c, (sanitizeName s).getLast? = some c → c ≠ ' ' := by
  intro c hc heq
  have := stripStr_last hc
  rw [heq] at this
  exact absurd this (by simp [isSpaceA])

/-- Inversion of a successful `format_recommendation`: the winner is the
head of the filtered re-sorted list, its raw name passed the pre-sanitize
length gate, and the output fields are as constructed. -/
theorem format_some_inv (fc : FormatCaps) (ms : List Mention) (src : Str) (r : Recommendation)
    (h : format_recommendation fc ms src = some r) :
    ∃ top rest, selected_sorted ms = top :: rest ∧ top.product ≠ [] ∧
      3 ≤ top.product.length ∧
      r.product = sanitizeName top.product ∧
      r.validity_score = top.validity_score ∧
      r.attributes = top.attributes ∧
      r.sources =
        (let s0 : List Str := if !top.source.isEmpty then [top.source] else []
         let s1 := if 1 < ms.length then appendSources (((sourceScanList ms).drop 1).take 4) s0
                   else s0
         if s1.isEmpty then defaultSources src else s1) := by
  rw [format_recommendation] at h
  split at h
  · exact absurd h (by simp)
  · cases hsel : selected_sorted ms with
    | nil => rw [hsel] at h; exact absurd h (by simp)
    | cons top rest =>
      rw [hsel] at h
      dsimp only at h
      split at h
      · exact absurd h (by simp)
      · next hcond =>
        have hcond' : ¬(top.product = []) ∧ ¬(top.product.length < 3) := by
          constructor
          · intro he; exact hcond (by simp [he])
          · intro hl; exact hcond (by simp [hl])
        have hr := Option.some.inj h
        subst hr
        exact ⟨top, rest, rfl, hcond'.1, by omega, rfl, rfl, rfl, rfl⟩

def mC6 : Mention :=
  { product := "Dell_XPS 15!".data, upvotes := 0, views := 0, likes := 0, title := [],
    sentiment := 0, source := "http://a".data, description := [], validity_score := 5,
    product_type := "vacuum".data, attributes := [], score := 0 }

/-- C6 counterexample: the sanitizer is `re.sub(r'[^\w\s\-]', '', …)` and
Python `\w` keeps the underscore, so a Recommendation's product may contain
`_`, which is neither alphanumeric nor a space nor a hyphen. -/
theorem claim_C6_counterexample :
    (format_recommendation fcId [mC6] "reddit".data).map (fun r => r.product)
      = some "Dell_XPS 15".data ∧
    '_' ∈ "Dell_XPS 15".data ∧ isAlnumA '_' = false ∧ '_' ≠ ' ' ∧ '_' ≠ '-' := by decide

/-- C6 as amended: the final product field of any Recommendation contains
only word characters (alphanumerics or the underscore), spaces, and hyphens,
with internal whitespace collapsed to single spaces (no two adjacent spaces,
no other whitespace character) and no leading or trailing space. -/
theorem claim_C6_amended (fc : FormatCaps) (ms : List Mention) (src : Str)
    (r : Recommendation) (h : format_recommendation fc ms src = some r) :
    (∀ c ∈ r.product, isWordA c = true ∨ c = ' ' ∨ c = '-') ∧
    List.Chain' (fun a b => ¬(a = ' ' ∧ b = ' ')) r.product ∧
    (∀ c, r.product.head? = some c → c ≠ ' ') ∧
    (∀ c, r.product.getLast? = some c → c ≠ ' ') := by
  obtain ⟨top, rest, -, -, -, hprod, -, -, -⟩ := format_some_inv fc ms src r h
  rw [hprod]
  exact ⟨sanitize_chars _, sanitize_chain _, sanitize_head _, sanitize_last _⟩

def recC6 : Recommendation :=
  { product := "Dell_XPS 15".data, description := [],
    sources := ["http://a".data],
    buy_link := "https://www.amazon.com/s?k=Dell_XPS+15&tag=allurecomreco-20".data,
    image_url := "https://placehold.co/400x400/f5f5f5/333?text=Dell_XPS+15".data,
    validity_score := 5, attributes := [] }

theorem claim_C6_amended_witness :
    format_recommendation fcId [mC6] "reddit".data = some recC6 ∧
    (∀ c ∈ recC6.product, isWordA c = true ∨ c = ' ' ∨ c = '-') :=
  ⟨by decide,
   (claim_C6_amended fcId [mC6] "reddit".data recC6 (by decide)).1⟩

theorem selectedProducts_ne_nil (ms : List Mention) (h : ms ≠ []) :
    selectedProducts ms ≠ [] := by
  rw [selectedProducts]
  split
  · split
    · next hsys =>
      split
      · next hval => exact (not_isEmpty_iff _).mp hval
      · exact (not_isEmpty_iff _).mp hsys
    · split
      · next hval => exact (not_isEmpty_iff _).mp hval
      · exact h
  · split
    · next hval => exact (not_isEmpty_iff _).mp hval
    · exact h

theorem selected_sorted_ne_nil (ms : List Mention) (h : ms ≠ []) :
    selected_sorted ms ≠ [] := by
  rw [selected_sorted]
  intro h2
  apply selectedProducts_ne_nil ms h
  have h3 := congrArg List.length h2
  rw [length_sortDesc] at h3
  exact List.length_eq_zero.mp h3

def mC7 : Mention := { mC6 with product := "!!!!".data }

/-- C7 counterexample: the length gate (`len(product_model) < 3`) is applied
to the raw winner name before sanitization, so a 4-character name of
punctuation passes the gate and yields a Recommendation whose sanitized
product is empty — the claim says no recommendation is returned when the
sanitized name has fewer than 3 characters. -/
theorem claim_C7_counterexample :
    (format_recommendation fcId [mC7] "reddit".data).map (fun r => r.product)
      = some ([] : Str) ∧
    (sanitizeName "!!!!".data).length = 0 ∧ ("!!!!".data : Str).length = 4 := by decide

/-- C7 as amended: the Formatter takes the head of the filtered, re-sorted
list as the winner; it returns no recommendation exactly when the input list
is empty or the winner's raw (pre-sanitization) name has fewer than 3
characters; in every other case it returns a Recommendation whose product is
the winner's sanitized name (which may itself then be shorter than 3
characters). -/
theorem claim_C7_amended (fc : FormatCaps) (ms : List Mention) (src : Str) :
    format_recommendation fc [] src = none ∧
    (ms ≠ [] → ∃ top rest, selected_sorted ms = top :: rest ∧
      (format_recommendation fc ms src = none ↔ top.product.length < 3) ∧
      (∀ r, format_recommendation fc ms src = some r →
        r.product = sanitizeName top.product)) := by
  constructor
  · rfl
  · intro hne
    cases hsel : selected_sorted ms with
    | nil => exact absurd hsel (selected_sorted_ne_nil ms hne)
    | cons top rest =>
      refine ⟨top, rest, rfl, ?_, ?_⟩
      · rw [format_recommendation, if_neg (by simpa [List.isEmpty_iff] using hne), hsel]
        dsimp only
        constructor
        · intro h0
          split at h0
          · next hcond =>
            simp only [Bool.or_eq_true, decide_eq_true_eq] at hcond
            rcases hcond with hc | hc
            · rw [hc]; decide
            · exact hc
          · exact absurd h0 (by simp)
        · intro hlt
          rw [if_pos (by simp [hlt])]
      · intro r hr
        obtain ⟨top', rest', hsel', -, -, hprod, -, -, -⟩ := format_some_inv fc ms src r hr
        rw [hsel] at hsel'
        injection hsel' with h1 _
        rw [hprod, ← h1]

theorem claim_C7_amended_witness :
    ([mC6] : List Mention) ≠ [] ∧
    (∃ top rest, selected_sorted [mC6] = top :: rest ∧
      (format_recommendation fcId [mC6] "reddit".data = none ↔ top.product.length < 3) ∧
      (∀ r, format_recommendation fcId [mC6] "reddit".data = some r →
        r.product = sanitizeName top.product)) :=
  ⟨by decide, (claim_C7_amended fcId [mC6] "reddit".data).2 (by decide)⟩

theorem appendSources_cons (m : Mention) (t : List Mention) (start : List Str) :
    appendSources (m :: t) start =
      appendSources t
        (if !m.source.isEmpty && !(start.contains m.source) && start.length < 3
         then start ++ [m.source] else start) := rfl

theorem appendSources_length : ∀ (scan : List Mention) (start : List Str),
    start.length ≤ 3 → (appendSources scan start).length ≤ 3 := by
  intro scan
  induction scan with
  | nil => intro s h; exact h
  | cons m t ih =>
    intro s h
    rw [appendSources_cons]
    refine ih _ ?_
    split
    · next hcond =>
      simp only [Bool.and_eq_true, decide_eq_true_eq] at hcond
      have h3 : s.length < 3 := hcond.2
      simp only [List.length_append, List.length_singleton]
      omega
    · exact h

theorem appendSources_nodup : ∀ (scan : List Mention) (start : List Str),
    start.Nodup → (appendSources scan start).Nodup := by
  intro scan
  induction scan with
  | nil => intro s h; exact h
  | cons m t ih =>
    intro s h
    rw [appendSources_cons]
    refine ih _ ?_
    split
    · next hcond =>
      simp only [Bool.and_eq_true, Bool.not_eq_true'] at hcond
      have hmem : m.source ∉ s := by
        intro hm
        have he : s.elem m.source = true := List.elem_iff.mpr hm
        rw [show s.contains m.source = s.elem m.source from rfl, he] at hcond
        exact absurd hcond.1.2 (by simp)
      simp [List.nodup_append, h, hmem]
    · exact h

theorem appendSources_mem : ∀ (scan : List Mention) (start : List Str) (u : Str),
    u ∈ appendSources scan start → u ∈ start ∨ ∃ m ∈ scan, u = m.source := by
  intro scan
  induction scan with
  | nil => intro s u h; exact Or.inl h
  | cons m t ih =>
    intro s u h
    rw [appendSources_cons] at h
    rcases ih _ u h with h1 | h1
    · revert h1
      split
      · intro h1
        rcases List.mem_append.mp h1 with h2 | h2
        · exact Or.inl h2
        · exact Or.inr ⟨m, List.mem_cons_self _ _, (List.mem_singleton.mp h2)⟩
      · intro h1
        exact Or.inl h1
    · obtain ⟨m', hm', he⟩ := h1
      exact Or.inr ⟨m', List.mem_cons_of_mem _ hm', he⟩

theorem appendSources_head : ∀ (scan : List Mention) (start : List Str),
    start ≠ [] → (appendSources scan start).head? = start.head? := by
  intro scan
  induction scan with
  | nil => intro s _; rfl
  | cons m t ih =>
    intro s hne
    rw [appendSources_cons]
    split
    · rw [ih _ (by simp [hne])]
      cases s with
      | nil => exact absurd rfl hne
      | cons a s' => rw [List.cons_append]; rfl
    · exact ih _ hne

theorem appendSources_ne_nil (scan : List Mention) (start : List Str) (h : start ≠ []) :
    appendSources scan start ≠ [] := by
  intro h2
  have h3 := appendSources_head scan start h
  rw [h2] at h3
  cases start with
  | nil => exact h rfl
  | cons a s' => exact absurd h3.symm (by simp)

/-- C8 as amended: a Recommendation's source list holds at most 3 unique
URLs; it starts with the winner's own (nonempty) source URL; every entry is
the winner's source, the source of one of positions 1-4 of the scanned list
— which is the ORIGINAL input mention list (re-sorted by score only in the
fallback case where the selection aliased the whole list), NOT the filtered
list the claim names — or the stream's fixed default, used only when the
list would otherwise be empty. -/
theorem claim_C8_amended (fc : FormatCaps) (ms : List Mention) (src : Str)
    (r : Recommendation) (h : format_recommendation fc ms src = some r) :
    r.sources.length ≤ 3 ∧ r.sources.Nodup ∧
    (∀ u ∈ r.sources,
       (∃ top rest, selected_sorted ms = top :: rest ∧ u = top.source) ∨
       (∃ m ∈ ((sourceScanList ms).drop 1).take 4, u = m.source) ∨
       u ∈ defaultSources src) ∧
    ((src = "reddit".data ∨ src = "youtube".data) → r.sources ≠ []) ∧
    (∀ top rest, selected_sorted ms = top :: rest → top.source ≠ [] →
       r.sources.head? = some top.source) := by
  obtain ⟨top, rest, hsel, -, -, -, -, -, hsrc⟩ := format_some_inv fc ms src r h
  have hsrc' : r.sources =
      (if (if 1 < ms.length
            then appendSources (((sourceScanList ms).drop 1).take 4)
              (if !top.source.isEmpty then [top.source] else [])
            else (if !top.source.isEmpty then [top.source] else [])).isEmpty
       then defaultSources src
       else (if 1 < ms.length
            then appendSources (((sourceScanList ms).drop 1).take 4)
              (if !top.source.isEmpty then [top.source] else [])
            else (if !top.source.isEmpty then [top.source] else []))) := hsrc
  set s0 : List Str := if !top.source.isEmpty then [top.source] else [] with hs0def
  set s1 : List Str :=
    if 1 < ms.length
    then appendSources (((sourceScanList ms).drop 1).take 4) s0
    else s0 with hs1def
  have hs0len : s0.length ≤ 3 := by
    rw [hs0def]; split <;> simp
  have hs0nodup : s0.Nodup := by
    rw [hs0def]; split <;> simp
  have hs0mem : ∀ u ∈ s0, u = top.source := by
    intro u hu
    rw [hs0def] at hu
    revert hu
    split
    · intro hu; exact List.mem_singleton.mp hu
    · intro hu; exact absurd hu (by simp)
  have hs1len : s1.length ≤ 3 := by
    rw [hs1def]
    split
    · exact appendSources_length _ _ hs0len
    · exact hs0len
  have hs1nodup : s1.Nodup := by
    rw [hs1def]
    split
    · exact appendSources_nodup _ _ hs0nodup
    · exact hs0nodup
  have hs1mem : ∀ u ∈ s1,
      u = top.source ∨ ∃ m ∈ ((sourceScanList ms).drop 1).take 4, u = m.source := by
    intro u hu
    rw [hs1def] at hu
    revert hu
    split
    · intro hu
      rcases appendSources_mem _ _ u hu with h1 | h1
      · exact Or.inl (hs0mem u h1)
      · exact Or.inr h1
    · intro hu
      exact Or.inl (hs0mem u hu)
  have hs1head : top.source ≠ [] → s1.head? = some top.source := by
    intro hts
    have hs0e : s0 = [top.source] := by
      rw [hs0def, if_pos ((not_isEmpty_iff _).mpr hts)]
    rw [hs1def]
    split
    · rw [hs0e, appendSources_head _ _ (by simp)]
      rfl
    · rw [hs0e]
      rfl
  have hdeflen : (defaultSources src).length ≤ 3 := by
    rw [defaultSources]
    split
    · simp
    · split <;> simp
  have hdefnodup : (defaultSources src).Nodup := by
    rw [defaultSources]
    split
    · simp
    · split <;> simp
  rw [hsrc']
  split
  · next hemp =>
    refine ⟨hdeflen, hdefnodup, ?_, ?_, ?_⟩
    · intro u hu
      exact Or.inr (Or.inr hu)
    · intro hsrckind hnil
      revert hnil
      rw [defaultSources]
      rcases hsrckind with hk | hk
      · rw [if_pos hk]; simp
      · by_cases hk2 : src = "reddit".data
        · rw [if_pos hk2]; simp
        · rw [if_neg hk2, if_pos hk]; simp
    · intro top' rest' hsel' hts
      rw [hsel] at hsel'
      injection hsel' with h1 _
      rw [← h1] at hts
      have hh := hs1head hts
      rw [List.isEmpty_iff] at hemp
      rw [hemp] at hh
      exact absurd hh.symm (by simp)
  · next hemp =>
    refine ⟨hs1len, hs1nodup, ?_, ?_, ?_⟩
    · intro u hu
      rcases hs1mem u hu with h1 | h1
      · exact Or.inl ⟨top, rest, hsel, h1⟩
      · exact Or.inr (Or.inl h1)
    · intro _ h2
      rw [h2] at hemp
      exact hemp rfl
    · intro top' rest' hsel' hts
      rw [hsel] at hsel'
      injection hsel' with h1 _
      rw [← h1] at hts
      rw [← h1]
      exact hs1head hts

theorem claim_C8_amended_witness :
    format_recommendation fcId [mC6] "reddit".data = some recC6 ∧
    recC6.sources.length ≤ 3 :=
  ⟨by decide, (claim_C8_amended fcId [mC6] "reddit".data recC6 (by decide)).1⟩

def mSysA8 : Mention :=
  { product := "Alienware Aurora".data, upvotes := 0, views := 0, likes := 0, title := [],
    sentiment := 0, source := "http://u1".data, description := [], validity_score := 5,
    product_type := "desktop".data, attributes := [], score := 9 }

def mCompB8 : Mention :=
  { mSysA8 with
    product := "RTX 4080".data, validity_score := 4, score := 8,
    source := "http://u2".data }

def mCompC8 : Mention :=
  { mSysA8 with
    product := "Ryzen 7 7800X".data, validity_score := 4, score := 7,
    source := "http://u3".data }

/-- C8 counterexample: a desktop-category input whose filtered list contains
only the system winner (source u1) still emits sources u2 and u3, because
the code scans `product_mentions[1:5]` — positions 1-4 of the ORIGINAL input
list, components included — not "the next up-to-4 mentions of the filtered
list" as the claim states (the filtered list has no further mentions at
all). -/
theorem claim_C8_counterexample :
    (format_recommendation fcId [mSysA8, mCompB8, mCompC8] "reddit".data).map
        (fun r => r.sources)
      = some ["http://u1".data, "http://u2".data, "http://u3".data] ∧
    (selected_sorted [mSysA8, mCompB8, mCompC8]).map (fun m => m.source)
      = ["http://u1".data] := by decide

end ProductRec
